import Mathlib

/-!
Verification of the RISC OS font-qualifier parser (`fontqualifiers.py`).

Python strings are modelled as `List Char`.  The helpers in this first
section model the Python built-ins the source relies on: `str.split(sep)`,
`str.lstrip(' ')`, `int(...)`, `str(int)`, and IEEE-754 binary64 arithmetic
(used for the matrix values, which the source stores as Python floats).
-/

/-- Python `s.split(sep)` with an explicit one-character separator: every
occurrence of the separator creates a boundary, empty segments are kept,
and the result is never the empty list (`''.split(c) == ['']`). -/
def pySplit (sep : Char) : List Char → List (List Char)
  | [] => [[]]
  | c :: rest =>
    match pySplit sep rest with
    | [] => [[]]
    | seg :: segs => if c = sep then [] :: seg :: segs else (c :: seg) :: segs

/-- Rejoin segments with a one-character separator (inverse of `pySplit`,
used only in proofs about offsets). -/
def joinSep (sep : Char) : List (List Char) → List Char
  | [] => []
  | [p] => p
  | p :: ps => p ++ sep :: joinSep sep ps

/-- ASCII whitespace stripped by Python `int()` around a numeral. -/
def isPyWs (c : Char) : Bool :=
  c = ' ' || c = '\t' || c = '\n' || c = '\r' || c = '\x0b' || c = '\x0c'

/-- Digit run of a Python decimal numeral, continuing an accumulator.
Single underscores are permitted between digits (Python 3 grouping). -/
def pyDigitsAux (acc : Nat) : List Char → Option Nat
  | [] => some acc
  | c :: rest =>
    if c.isDigit then pyDigitsAux (acc * 10 + (c.toNat - 48)) rest
    else if c = '_' then
      match rest with
      | [] => none
      | d :: rest2 => if d.isDigit then pyDigitsAux (acc * 10 + (d.toNat - 48)) rest2 else none
    else none

/-- Digit run of a Python decimal numeral: must start with a digit. -/
def pyDigits : List Char → Option Nat
  | [] => none
  | c :: rest => if c.isDigit then pyDigitsAux (c.toNat - 48) rest else none

/-- Strip leading and trailing whitespace (as Python `int()` does). -/
def pyStrip (s : List Char) : List Char :=
  ((s.dropWhile isPyWs).reverse.dropWhile isPyWs).reverse

/-- Model of Python `int(s)` on ASCII input: optional surrounding
whitespace, an optional sign, then a non-empty digit run (with underscore
grouping).  Non-ASCII digits are not modelled. -/
def pyInt (s : List Char) : Option Int :=
  match pyStrip s with
  | [] => none
  | c :: rest =>
    if c = '+' then (pyDigits rest).map (fun n => (n : Int))
    else if c = '-' then (pyDigits rest).map (fun n => -(n : Int))
    else (pyDigits (c :: rest)).map (fun n => (n : Int))

/-- Decimal digits, least significant first, with structural fuel so the
kernel can evaluate it (the fuel is always sufficient). -/
def natDigitsRevAux : Nat → Nat → List Nat
  | 0, _ => []
  | fuel + 1, n => if n = 0 then [] else n % 10 :: natDigitsRevAux fuel (n / 10)

/-- Decimal digits of `n`, least significant first. -/
def natDigitsRev (n : Nat) : List Nat :=
  natDigitsRevAux (n + 1) n

/-- Decimal rendering of a natural number (Python `str` on a non-negative
int). -/
def natToDec (n : Nat) : List Char :=
  if n = 0 then ['0'] else ((natDigitsRev n).reverse).map Nat.digitChar

/-- Decimal rendering of an integer (Python `str(int)` / `'{}'.format`). -/
def intToDec (v : Int) : List Char :=
  if v < 0 then '-' :: natToDec v.natAbs else natToDec v.toNat

/-!
IEEE-754 binary64 model.  The matrix values live in the binary64 normal
range (magnitudes between roughly 2^-11 and 2^41), so overflow and
subnormals never occur and a float is exactly a rational of the form
`m * 2^(e-52)` with `2^52 ≤ |m| < 2^53`.  `roundFloat` maps an exact
rational to the nearest such value, ties to even significand.

Rationals are represented by an explicit numerator/positive-denominator
pair without normalisation (`Q`), so that every operation is structural
and the kernel can evaluate the whole pipeline.
-/

/-- Exact rational as a plain numerator / positive-denominator pair.
No normalisation invariant: all operations below keep the denominator
positive, and none of the claims compares two differently-computed
representations of one value. -/
structure Q where
  num : Int
  den : Nat
deriving DecidableEq, Repr

/-- Exact strict comparison (denominators are positive). -/
def Q.blt (a b : Q) : Bool :=
  a.num * (b.den : Int) < b.num * (a.den : Int)

/-- Exact non-strict comparison (denominators are positive). -/
def Q.ble (a b : Q) : Bool :=
  a.num * (b.den : Int) ≤ b.num * (a.den : Int)

/-- Floor of an exact rational. -/
def Q.floor (a : Q) : Int :=
  Int.fdiv a.num (a.den : Int)

/-- Absolute value. -/
def Q.qabs (a : Q) : Q :=
  ⟨(a.num.natAbs : Int), a.den⟩

/-- Multiplication by an integer power of two. -/
def Q.mulP2 (a : Q) (k : Int) : Q :=
  if 0 ≤ k then ⟨a.num * ((2 ^ k.toNat : Nat) : Int), a.den⟩
  else ⟨a.num, a.den * 2 ^ (-k).toNat⟩

/-- Multiplication by a natural constant. -/
def Q.mulNat (a : Q) (n : Nat) : Q :=
  ⟨a.num * (n : Int), a.den⟩

/-- Floor of the base-2 logarithm of a positive natural, with structural
fuel (always sufficient) so the kernel can evaluate it. -/
def log2Aux : Nat → Nat → Nat
  | 0, _ => 0
  | fuel + 1, m => if m ≤ 1 then 0 else log2Aux fuel (m / 2) + 1

/-- One half. -/
def qHalf : Q := ⟨1, 2⟩

/-- Floor of the base-2 logarithm of a positive rational `a`: from the
bit lengths of numerator and denominator, `⌊log2 a⌋` is `L` or `L - 1`
where `L` is their difference; one exact comparison decides which. -/
def floorLog2Q (a : Q) : Int :=
  let lnum : Int := log2Aux a.num.toNat a.num.toNat
  let lden : Int := log2Aux a.den a.den
  let cand : Int := lnum - lden
  if (if 0 ≤ cand then (⟨((2 ^ cand.toNat : Nat) : Int), 1⟩ : Q)
      else ⟨1, 2 ^ (-cand).toNat⟩).ble a then cand
  else cand - 1

/-- Round a rational to the nearest integer, ties to even. -/
def rhe (x : Q) : Int :=
  let f := x.floor
  let fr : Q := ⟨x.num - f * (x.den : Int), x.den⟩
  if fr.blt qHalf then f
  else if qHalf.blt fr then f + 1
  else if f % 2 = 0 then f else f + 1

/-- Round an exact rational to the nearest binary64 value (normal range
only, which covers every value this program computes). -/
def roundFloat (q : Q) : Q :=
  if q.num = 0 then ⟨0, 1⟩
  else
    let s : Int := if q.num < 0 then -1 else 1
    let e : Int := floorLog2Q q.qabs
    (⟨s * rhe (q.qabs.mulP2 (52 - e)), 1⟩ : Q).mulP2 (e - 52)

/-- Python `value / scale` where `value` is an int and `scale` a float
constant (`65536.0` or `1000.0`): exact conversion then one rounding. -/
def fdiv (v : Int) (scale : Nat) : Q :=
  roundFloat ⟨v, scale⟩

/-- Python `x * scale` on a float `x` and an exact int constant. -/
def fmul (x : Q) (scale : Nat) : Q :=
  roundFloat (x.mulNat scale)

/-- Python `int(x)` on a float: truncation toward zero. -/
def ratTrunc (q : Q) : Int :=
  if 0 ≤ q.num then q.num / (q.den : Int) else -((-q.num) / (q.den : Int))

/-!
Data model.  A field of a `FontQualifiers` object is `None` (unset),
the `FontQualifierEmpty` marker (explicitly cleared, reachable only in
allow-empty mode), or an actual value.
-/

/-- Three-state field of a qualifier set: Python `None`, the
`FontQualifierEmpty` placeholder class, or a value. -/
inductive FieldVal (α : Type) where
  | unset : FieldVal α
  | empty : FieldVal α
  | val : α → FieldVal α
deriving DecidableEq, Repr

/-- Parsed representation of one font-qualifier string, mirroring the five
attributes of the Python `FontQualifiers` object.  Matrix entries are the
binary64 values the source computes (`value / 65536.0` resp.
`value / 1000.0`), represented as exact rationals. -/
structure FontQualifiers where
  fontid : FieldVal (List Char)
  fontlocal : FieldVal (Int × List Char)
  encoding : FieldVal (List Char)
  encodinglocal : FieldVal (Int × List Char)
  matrix : FieldVal (List Q)
deriving DecidableEq, Repr

/-- The freshly initialised object (all five attributes `None`). -/
def emptyFQ : FontQualifiers :=
  ⟨.unset, .unset, .unset, .unset, .unset⟩

/-- Decidable equality for `Except`, so concrete parser results can be
checked by `decide`. -/
instance {ε α : Type} [DecidableEq ε] [DecidableEq α] : DecidableEq (Except ε α) := fun a b =>
  match a, b with
  | .ok x, .ok y =>
    if h : x = y then isTrue (by rw [h]) else isFalse (fun hc => by cases hc; exact h rfl)
  | .error x, .error y =>
    if h : x = y then isTrue (by rw [h]) else isFalse (fun hc => by cases hc; exact h rfl)
  | .ok _, .error _ => isFalse (fun hc => by cases hc)
  | .error _, .ok _ => isFalse (fun hc => by cases hc)

/-- Failure modes: the two `FontQualifiersError` subclasses raised by the
parser, plus the Python `IndexError` that `part[0]` raises on an empty
segment (reachable, e.g. on input `"\\"`). -/
inductive FQError where
  | badString : List Char → FQError
  | badMatrix : List Char → FQError
  | indexError : FQError
deriving DecidableEq, Repr

/-- Message of the unrecognised-qualifier error. -/
def msgQual (q : Char) : List Char :=
  "Cannot parse qualifier \x27".data ++ [q] ++ "\x27".data

/-- Message of the invalid-font-name error. -/
def msgFontName (p : List Char) : List Char :=
  "Invalid font name in \x27".data ++ p ++ "\x27".data

/-- Message of the invalid-encoding-name error. -/
def msgEncName (p : List Char) : List Char :=
  "Invalid encoding name qualifier in \x27".data ++ p ++ "\x27".data

/-- Message of the font-local field with no space. -/
def msgFontLocal (p : List Char) : List Char :=
  "Cannot parse font name qualifier in \x27".data ++ p ++ "\x27".data

/-- Message of the font-local field with a non-integer territory. -/
def msgFontLocalTerr (p : List Char) : List Char :=
  "Cannot parse font name qualifier with invalid territory in \x27".data ++ p ++ "\x27".data

/-- Message of the encoding-local field with no space. -/
def msgEncLocal (p : List Char) : List Char :=
  "Cannot parse font encoding qualifier in \x27".data ++ p ++ "\x27".data

/-- Message of the encoding-local field with a non-integer territory. -/
def msgEncLocalTerr (p : List Char) : List Char :=
  "Cannot parse font encoding qualifier with invalid territory in \x27".data ++ p ++ "\x27".data

/-- Message of the matrix field missing its required trailing space. -/
def msgMatrixSpace (p : List Char) : List Char :=
  "Cannot parse font matrix without trailing space in \x27".data ++ p ++ "\x27".data

/-- Message of the matrix field with the wrong component count. -/
def msgMatrixCount (n : Nat) (p : List Char) : List Char :=
  "Cannot parse font matrix with ".data ++ natToDec n ++ " components in \x27".data
    ++ p ++ "\x27".data

/-- Message of the matrix field with a non-integer component. -/
def msgMatrixInt (p : List Char) : List Char :=
  "Cannot parse font matrix values as integers in \x27".data ++ p ++ "\x27".data

/-- Message of the matrix field with an out-of-range component. -/
def msgMatrixBig (p : List Char) : List Char :=
  "Cannot value too large in font matrix \x27".data ++ p ++ "\x27".data

/-- Model of `acceptable_identifiers_re.search(part)` where the pattern is
`^[\x21-\x7e]+$` and no flags are set: `^` anchors at the start of the
string only, while `$` matches at the end of the string or just before one
final newline (CPython `re` semantics). -/
def acceptable_identifiers (s : List Char) : Bool :=
  let core := if s.getLast? = some '\n' then s.dropLast else s
  !core.isEmpty && core.all (fun c => 0x21 ≤ c.toNat && c.toNat ≤ 0x7e)

/-- Run `pyInt` over each matrix component; `none` as soon as one
component fails (models the `ValueError` escaping the comprehension). -/
def intsOf : List (List Char) → Option (List Int)
  | [] => some []
  | c :: rest =>
    match pyInt c, intsOf rest with
    | some v, some vs => some (v :: vs)
    | _, _ => none

/-- Conversion of the six validated integers to the stored floats:
components 0-3 are divided by 65536.0, components 4-5 by 1000.0. -/
def mkMatrix (vs : List Int) : List Q :=
  vs.enum.map (fun p => if p.1 < 4 then fdiv p.2 65536 else fdiv p.2 1000)

/-- Count/value checks and conversion of the matrix components, after the
trailing-space handling. -/
def matrixRest (mp2 : List (List Char)) (stripped : List Char) : Except FQError (List Q) :=
  if mp2.length ≠ 6 then .error (.badMatrix (msgMatrixCount mp2.length stripped))
  else
    match intsOf mp2 with
    | none => .error (.badMatrix (msgMatrixInt stripped))
    | some vs =>
      if vs.any (fun v => decide (2 ^ 31 ≤ v)) then .error (.badMatrix (msgMatrixBig stripped))
      else if vs.any (fun v => decide (v ≤ -(2 ^ 31))) then
        .error (.badMatrix (msgMatrixBig stripped))
      else .ok (mkMatrix vs)

/-- The matrix branch of the parser for a non-(empty-and-allow-empty)
field body: strip leading spaces, split on spaces, drop one trailing empty
component (else fail when the trailing space is required), then check and
convert. -/
def parseMatrixField (nSp : Bool) (body : List Char) : Except FQError (List Q) :=
  let stripped := body.dropWhile (fun c => c = ' ')
  let mp := pySplit ' ' stripped
  if mp.getLast? = some [] then matrixRest mp.dropLast stripped
  else if nSp then .error (.badMatrix (msgMatrixSpace stripped))
  else matrixRest mp stripped

/-- Dispatch on one `(kind-char, body)` segment, updating the object state.
An empty segment models the Python `part[0]` crash. -/
def parseOnePart (nSp aE : Bool) (st : FontQualifiers) (p : List Char) :
    Except FQError FontQualifiers :=
  match p with
  | [] => .error .indexError
  | q :: body =>
    if q = 'F' then
      if body.isEmpty && aE then .ok { st with fontid := .empty }
      else if acceptable_identifiers body then .ok { st with fontid := .val body }
      else .error (.badString (msgFontName body))
    else if q = 'f' then
      if body.isEmpty && aE then .ok { st with fontlocal := .empty }
      else if ' ' ∈ body then
        match pyInt (body.takeWhile (fun c => c ≠ ' ')) with
        | some t =>
          .ok { st with fontlocal := .val (t, (body.dropWhile (fun c => c ≠ ' ')).tail) }
        | none => .error (.badString (msgFontLocalTerr body))
      else .error (.badString (msgFontLocal body))
    else if q = 'E' then
      if body.isEmpty && aE then .ok { st with encoding := .empty }
      else if acceptable_identifiers body then .ok { st with encoding := .val body }
      else .error (.badString (msgEncName body))
    else if q = 'e' then
      if body.isEmpty && aE then .ok { st with encodinglocal := .empty }
      else if ' ' ∈ body then
        match pyInt (body.takeWhile (fun c => c ≠ ' ')) with
        | some t =>
          .ok { st with encodinglocal := .val (t, (body.dropWhile (fun c => c ≠ ' ')).tail) }
        | none => .error (.badString (msgEncLocalTerr body))
      else .error (.badString (msgEncLocal body))
    else if q = 'M' then
      if body.isEmpty && aE then .ok { st with matrix := .empty }
      else
        match parseMatrixField nSp body with
        | .ok m => .ok { st with matrix := .val m }
        | .error e => .error e
    else .error (.badString (msgQual q))

/-- Fold of the parser over the field segments; the first error aborts. -/
def parseParts (nSp aE : Bool) (st : FontQualifiers) :
    List (List Char) → Except FQError FontQualifiers
  | [] => .ok st
  | p :: rest =>
    match parseOnePart nSp aE st p with
    | .ok st2 => parseParts nSp aE st2 rest
    | .error e => .error e

/-- The bare-font-name shortcut: a string not starting with the separator
is treated as `\F` plus the string. -/
def normalizeFQ (s : List Char) : List Char :=
  if s.head? = some '\\' then s else '\\' :: 'F' :: s

/-- Field segments of a font string: split the (normalised) string on the
separator and discard the first (always empty) segment. -/
def fieldSegments (s : List Char) : List (List Char) :=
  (pySplit '\\' (normalizeFQ s)).tail

/-- The `parse` method: given the current object state, parse a font
string and return the updated state (or the first error raised). -/
def FontQualifiers.parse (self : FontQualifiers) (s : List Char) (nSp aE : Bool) :
    Except FQError FontQualifiers :=
  if s.isEmpty && aE then .ok self
  else parseParts nSp aE self (fieldSegments s)

/-- The constructor `FontQualifiers(font_string, ...)`: initialise all
five attributes to `None`, then parse. -/
def mkFontQualifiers (s : List Char) (nSp aE : Bool) : Except FQError FontQualifiers :=
  FontQualifiers.parse emptyFQ s nSp aE

/-- The `reduce` helper of `apply_fields`: an explicitly-empty overlay
field unsets the base field, a present overlay value replaces it, and an
absent overlay field keeps the base value. -/
def reduceField {α : Type} (current newv : FieldVal α) : FieldVal α :=
  match newv with
  | .empty => .unset
  | .val v => .val v
  | .unset => current

/-- The `apply_fields` method: parse the overlay string in allow-empty
mode and merge it into the base object.  The returned pair is the raised
error (if any) together with the post-state of the base object; when the
overlay parse raises, the base object is untouched (the exception escapes
the overlay constructor before any assignment to the base). -/
def FontQualifiers.apply_fields (self : FontQualifiers) (s : List Char) (nSp : Bool) :
    Except FQError Unit × FontQualifiers :=
  match mkFontQualifiers s nSp true with
  | .error e => (.error e, self)
  | .ok ap =>
    (.ok (), ⟨reduceField self.fontid ap.fontid,
              reduceField self.fontlocal ap.fontlocal,
              reduceField self.encoding ap.encoding,
              reduceField self.encodinglocal ap.encodinglocal,
              reduceField self.matrix ap.matrix⟩)

/-- Rendering of a matrix field: the four scale components times 65536 and
the two offsets times 1000 (float multiplications), truncated to int,
space-separated, with one trailing space.  The source indexes elements
0 to 5 directly; every stored matrix has exactly six entries. -/
def matrixText (m : List Q) : List Char :=
  match m with
  | [m0, m1, m2, m3, m4, m5] =>
    intToDec (ratTrunc (fmul m0 65536)) ++ ' ' :: intToDec (ratTrunc (fmul m1 65536)) ++ ' ' ::
    intToDec (ratTrunc (fmul m2 65536)) ++ ' ' :: intToDec (ratTrunc (fmul m3 65536)) ++ ' ' ::
    intToDec (ratTrunc (fmul m4 1000)) ++ ' ' :: intToDec (ratTrunc (fmul m5 1000)) ++ [' ']
  | _ => []

/-- The `font_string` property: serialise the set fields (skipping unset
and explicitly-cleared ones) in the fixed order F, f, E, e, M, with the
single-field bare-font-name shortcut. -/
def FontQualifiers.font_string (q : FontQualifiers) : List Char :=
  let fields : List (Char × List Char) :=
    (match q.fontid with | .val s => [('F', s)] | _ => []) ++
    (match q.fontlocal with | .val p => [('f', intToDec p.1 ++ ' ' :: p.2)] | _ => []) ++
    (match q.encoding with | .val s => [('E', s)] | _ => []) ++
    (match q.encodinglocal with | .val p => [('e', intToDec p.1 ++ ' ' :: p.2)] | _ => []) ++
    (match q.matrix with | .val m => [('M', matrixText m)] | _ => [])
  match fields with
  | [('F', s)] => s
  | fs => (fs.map (fun f => '\\' :: f.1 :: f.2)).flatten

/-- Loop of `find_field` over the segments after the first: each segment
contributes 2 bytes (separator and kind character) before its text, then
its text length; an empty segment models the `part[0]` crash. -/
def findFieldLoop (wanted : Char) : Nat → List (List Char) → Except FQError (Option Nat)
  | _, [] => .ok none
  | off, p :: rest =>
    match p with
    | [] => .error .indexError
    | q :: ptail =>
      if q = wanted then .ok (some (off + 2))
      else findFieldLoop wanted (off + 2 + ptail.length) rest

/-- The static `find_field`: offset of the wanted field kind in the
original string, `none` when absent, without validating the string. -/
def FontQualifiers.find_field (s : List Char) (wanted : Char) : Except FQError (Option Nat) :=
  if s.isEmpty then .ok none
  else if s.head? ≠ some '\\' ∧ wanted = 'F' then .ok (some 0)
  else
    let parts := pySplit '\\' s
    findFieldLoop wanted (parts.headD []).length parts.tail

/-!
Basic lemmas about the string primitives.
-/

/-- Python `split` never returns the empty list. -/
theorem pySplit_ne_nil (sep : Char) (l : List Char) : pySplit sep l ≠ [] := by
  cases l with
  | nil => simp [pySplit]
  | cons c rest =>
    simp only [pySplit]
    cases h : pySplit sep rest with
    | nil => simp
    | cons seg segs =>
      by_cases hc : c = sep <;> simp [hc]

/-- Splitting a separator-free string yields that string as the only
segment. -/
theorem pySplit_no_sep (sep : Char) (l : List Char) (h : sep ∉ l) :
    pySplit sep l = [l] := by
  induction l with
  | nil => simp [pySplit]
  | cons c rest ih =>
    simp only [List.mem_cons, not_or] at h
    simp only [pySplit, ih h.2]
    rw [if_neg (fun hc => h.1 hc.symm)]

/-- Splitting a string that starts with the separator. -/
theorem pySplit_cons_sep (sep : Char) (l : List Char) :
    pySplit sep (sep :: l) = [] :: pySplit sep l := by
  simp only [pySplit]
  cases h : pySplit sep l with
  | nil => exact absurd h (pySplit_ne_nil sep l)
  | cons seg segs => simp

/-- Splitting around the first separator occurrence. -/
theorem pySplit_append_sep (sep : Char) (a b : List Char) (h : sep ∉ a) :
    pySplit sep (a ++ sep :: b) = a :: pySplit sep b := by
  induction a with
  | nil => simpa using pySplit_cons_sep sep b
  | cons c a' ih =>
    simp only [List.mem_cons, not_or] at h
    simp only [List.cons_append, pySplit, List.append_eq, ih h.2]
    rw [if_neg (fun hc => h.1 hc.symm)]

/-- Membership in `isinstance(e, FontQualifiersError)` form: the two
declared error classes, excluding the accidental `IndexError`. -/
def isFontQualifiersError : FQError → Bool
  | .badString _ => true
  | .badMatrix _ => true
  | .indexError => false

/-- Every error produced by `matrixRest` is a `BadMatrix`. -/
theorem matrixRest_error_shape (mp2 : List (List Char)) (st : List Char) (e : FQError)
    (h : matrixRest mp2 st = .error e) : ∃ m, e = .badMatrix m := by
  unfold matrixRest at h
  split at h
  · exact ⟨_, (Except.error.inj h).symm⟩
  · split at h
    · exact ⟨_, (Except.error.inj h).symm⟩
    · split at h
      · exact ⟨_, (Except.error.inj h).symm⟩
      · split at h
        · exact ⟨_, (Except.error.inj h).symm⟩
        · exact absurd h (by simp)

/-- Every error produced by the matrix field parser is a `BadMatrix`. -/
theorem parseMatrixField_error_shape (nSp : Bool) (body : List Char) (e : FQError)
    (h : parseMatrixField nSp body = .error e) : ∃ m, e = .badMatrix m := by
  simp only [parseMatrixField] at h
  split at h
  · exact matrixRest_error_shape _ _ _ h
  · split at h
    · exact ⟨_, (Except.error.inj h).symm⟩
    · exact matrixRest_error_shape _ _ _ h

/-- Dispatch on a non-empty segment can only fail with one of the two
declared error classes. -/
theorem parseOnePart_error_shape (nSp aE : Bool) (st : FontQualifiers) (p : List Char)
    (e : FQError) (hne : p ≠ []) (h : parseOnePart nSp aE st p = .error e) :
    isFontQualifiersError e = true := by
  match p, hne with
  | q :: body, _ =>
    simp only [parseOnePart] at h
    split at h
    · split at h
      · exact absurd h (by simp)
      · split at h
        · exact absurd h (by simp)
        · obtain rfl := (Except.error.inj h).symm; rfl
    · split at h
      · split at h
        · exact absurd h (by simp)
        · split at h
          · split at h
            · exact absurd h (by simp)
            · obtain rfl := (Except.error.inj h).symm; rfl
          · obtain rfl := (Except.error.inj h).symm; rfl
      · split at h
        · split at h
          · exact absurd h (by simp)
          · split at h
            · exact absurd h (by simp)
            · obtain rfl := (Except.error.inj h).symm; rfl
        · split at h
          · split at h
            · exact absurd h (by simp)
            · split at h
              · split at h
                · exact absurd h (by simp)
                · obtain rfl := (Except.error.inj h).symm; rfl
              · obtain rfl := (Except.error.inj h).symm; rfl
          · split at h
            · split at h
              · exact absurd h (by simp)
              · split at h
                · exact absurd h (by simp)
                · obtain rfl := (Except.error.inj h).symm
                  obtain ⟨m2, rfl⟩ := parseMatrixField_error_shape _ _ _ (by assumption)
                  rfl
            · obtain rfl := (Except.error.inj h).symm; rfl

/-- A parse over non-empty segments can only fail with one of the two
declared error classes. -/
theorem parseParts_error_shape (nSp aE : Bool) (ps : List (List Char))
    (hps : ∀ p ∈ ps, p ≠ []) :
    ∀ st e, parseParts nSp aE st ps = .error e → isFontQualifiersError e = true := by
  induction ps with
  | nil => intro st e h; exact absurd h (by simp [parseParts])
  | cons p rest ih =>
    intro st e h
    simp only [parseParts] at h
    split at h
    · exact ih (fun x hx => hps x (List.mem_cons_of_mem _ hx)) _ _ h
    · obtain rfl := (Except.error.inj h).symm
      exact parseOnePart_error_shape _ _ _ _ _ (hps p (List.mem_cons_self _ _)) (by assumption)

/-- The `find_field` loop returns normally on non-empty segments. -/
theorem findFieldLoop_ok (w : Char) (ps : List (List Char)) (hps : ∀ p ∈ ps, p ≠ []) :
    ∀ off, ∃ r, findFieldLoop w off ps = .ok r := by
  induction ps with
  | nil => intro off; exact ⟨none, rfl⟩
  | cons p rest ih =>
    intro off
    match p, hps p (List.mem_cons_self _ _) with
    | q :: pt, _ =>
      simp only [findFieldLoop]
      by_cases hq : q = w
      · exact ⟨some (off + 2), by simp [hq]⟩
      · simpa [hq] using ih (fun x hx => hps x (List.mem_cons_of_mem _ hx)) (off + 2 + pt.length)

/-- C9: the character-set invariant claimed for identifiers fails on the
code: the anchored regex is applied with `re.search`, whose `$` also
matches just before one final newline, so `parse("abc\n")` succeeds and
stores a `font_id` containing the control character 0x0A. -/
theorem C9_code_bug_newline :
    mkFontQualifiers "abc\n".data false false =
      .ok ⟨.val "abc\n".data, .unset, .unset, .unset, .unset⟩ ∧
    ("abc\n".data : List Char).all (fun c => 0x21 ≤ c.toNat && c.toNat ≤ 0x7e) = false := by
  decide

/-- C3 counterexample: `find_field` is not total — on the string `"\"`
the segment after the separator is empty and `part[0]` raises
`IndexError`, which is not a return of an offset or of not-found. -/
theorem C3_counterexample :
    FontQualifiers.find_field ['\\'] 'F' = .error .indexError := by decide

/-- C3 amended: for every input whose backslash-separated segments after
the first are all non-empty (in particular no `"\\\\"` and no trailing
separator), `find_field` terminates normally with an offset or not-found,
whatever the wanted character and the field contents. -/
theorem C3_amended (s : List Char) (w : Char)
    (h : ∀ p ∈ (pySplit '\\' s).tail, p ≠ []) :
    ∃ r : Option Nat, FontQualifiers.find_field s w = .ok r := by
  unfold FontQualifiers.find_field
  split
  · exact ⟨none, rfl⟩
  · split
    · exact ⟨some 0, rfl⟩
    · exact findFieldLoop_ok w _ h _

/-- C3 witness: the amended statement at a concrete input. -/
theorem C3_witness :
    ∃ r : Option Nat, FontQualifiers.find_field "\\FHomerton.Medium".data 'E' = .ok r :=
  C3_amended _ 'E' (by decide)

/-- C4 counterexample: a parse failure that is neither `BadString` nor
`BadMatrix` — on input `"\"` the parser hits an empty segment and raises
`IndexError`, which is not a `FontQualifiersError` at all. -/
theorem C4_counterexample :
    mkFontQualifiers ['\\'] false false = .error .indexError ∧
    isFontQualifiersError .indexError = false := by decide

/-- C4 amended: when every field segment of the (normalised) string is
non-empty, any parse failure is one of exactly the two declared errors,
`BadString` or `BadMatrix`; and, universally, a field whose kind
character is not one of the five recognised kinds (`F`, `f`, `E`, `e`,
`M`) fails with a `BadString` naming that character, whatever the field
body and the current state. -/
theorem C4_amended (s : List Char) (nSp aE : Bool) (e : FQError)
    (hseg : ∀ p ∈ fieldSegments s, p ≠ [])
    (he : mkFontQualifiers s nSp aE = .error e) :
    isFontQualifiersError e = true ∧
    ∀ (q : Char) (body : List Char) (st : FontQualifiers),
      q ≠ 'F' → q ≠ 'f' → q ≠ 'E' → q ≠ 'e' → q ≠ 'M' →
      parseOnePart nSp aE st (q :: body) = .error (.badString (msgQual q)) := by
  constructor
  · unfold mkFontQualifiers FontQualifiers.parse at he
    split at he
    · exact absurd he (by simp)
    · exact parseParts_error_shape _ _ _ hseg _ _ he
  · intro q body st h1 h2 h3 h4 h5
    simp only [parseOnePart, if_neg h1, if_neg h2, if_neg h3, if_neg h4, if_neg h5]

/-- C4 witness: the amended statement applied at a concrete failing
input (`"\F Homerton"`, an identifier with an illegal space), with the
unknown-kind clause instantiated at the field `Xabc`. -/
theorem C4_witness :
    isFontQualifiersError (.badString (msgFontName " Homerton".data)) = true ∧
    parseOnePart false false emptyFQ ('X' :: "abc".data) =
      .error (.badString (msgQual 'X')) := by
  have h := C4_amended "\\F Homerton".data false false
    (.badString (msgFontName " Homerton".data)) (by decide) (by decide)
  exact ⟨h.1, h.2 'X' "abc".data emptyFQ (by decide) (by decide) (by decide)
    (by decide) (by decide)⟩

/-- The merge rule exactly as the specification words it: an
explicitly-cleared overlay field yields unset, a set overlay field yields
the overlay value, an unmentioned overlay field keeps the base value. -/
def specMergeField {α : Type} (base ov : FieldVal α) : FieldVal α :=
  match ov with
  | .empty => .unset
  | .val v => .val v
  | .unset => base

/-- The code's `reduce` agrees with the specification's merge rule. -/
theorem reduceField_eq_spec {α : Type} (b o : FieldVal α) :
    reduceField b o = specMergeField b o := by
  cases o <;> rfl

/-- The base of the worked merge examples: font_id "Homerton.Medium",
encoding "Latin1", matrix [0, 0, 0, 0, 0, 0]. -/
def exampleBase : FontQualifiers :=
  ⟨.val "Homerton.Medium".data, .unset, .val "Latin1".data, .unset,
   .val (mkMatrix [0, 0, 0, 0, 0, 0])⟩

/-- C1: whenever the overlay string parses in allow-empty mode,
`apply_fields` updates each of the five fields independently by the
unset/set/cleared rule, and on the worked base: applying `""` changes
nothing, `"Selwyn"` sets only font_id, `"\F"` unsets only font_id, and
`"\F\E"` unsets font_id and encoding. -/
theorem C1_apply_fields_merge (B ov : FontQualifiers) (S : List Char) (nSp : Bool)
    (h : mkFontQualifiers S nSp true = .ok ov) :
    B.apply_fields S nSp =
      (.ok (), ⟨specMergeField B.fontid ov.fontid,
                specMergeField B.fontlocal ov.fontlocal,
                specMergeField B.encoding ov.encoding,
                specMergeField B.encodinglocal ov.encodinglocal,
                specMergeField B.matrix ov.matrix⟩) ∧
    exampleBase.apply_fields [] false = (.ok (), exampleBase) ∧
    exampleBase.apply_fields "Selwyn".data false =
      (.ok (), { exampleBase with fontid := .val "Selwyn".data }) ∧
    exampleBase.apply_fields "\\F".data false =
      (.ok (), { exampleBase with fontid := .unset }) ∧
    exampleBase.apply_fields "\\F\\E".data false =
      (.ok (), { exampleBase with fontid := .unset, encoding := .unset }) := by
  refine ⟨?_, by decide, by decide, by decide, by decide⟩
  unfold FontQualifiers.apply_fields
  rw [h]
  simp only [reduceField_eq_spec]

/-- C1 witness: the merge theorem applied to the worked base and the
overlay `"\F"`. -/
theorem C1_witness :
    exampleBase.apply_fields "\\F".data false =
      (.ok (), ⟨specMergeField exampleBase.fontid .empty,
                specMergeField exampleBase.fontlocal .unset,
                specMergeField exampleBase.encoding .unset,
                specMergeField exampleBase.encodinglocal .unset,
                specMergeField exampleBase.matrix .unset⟩) :=
  (C1_apply_fields_merge exampleBase ⟨.empty, .unset, .unset, .unset, .unset⟩
    "\\F".data false (by decide)).1

/-- C7: if the overlay parse fails, `apply_fields` reports that very
error and leaves all five fields of the base unchanged (no partial
update); on success it replaces exactly the five fields by the merge
rule and touches nothing else. -/
theorem C7_apply_fields_atomic (B : FontQualifiers) (S : List Char) (nSp : Bool) :
    (∀ e, mkFontQualifiers S nSp true = .error e → B.apply_fields S nSp = (.error e, B)) ∧
    (∀ ov, mkFontQualifiers S nSp true = .ok ov →
      B.apply_fields S nSp =
        (.ok (), ⟨reduceField B.fontid ov.fontid, reduceField B.fontlocal ov.fontlocal,
                  reduceField B.encoding ov.encoding,
                  reduceField B.encodinglocal ov.encodinglocal,
                  reduceField B.matrix ov.matrix⟩)) := by
  constructor
  · intro e he
    unfold FontQualifiers.apply_fields
    rw [he]
  · intro ov hov
    unfold FontQualifiers.apply_fields
    rw [hov]

/-- C7 witness: the overlay `"\"` raises, and the worked base comes back
untouched. -/
theorem C7_witness : exampleBase.apply_fields ['\\'] false = (.error .indexError, exampleBase) :=
  (C7_apply_fields_atomic exampleBase ['\\'] false).1 .indexError (by decide)


/-- Evaluation of an `F` segment with a non-empty valid identifier. -/
theorem parseOnePart_F_val (nSp aE : Bool) (st : FontQualifiers) (body : List Char)
    (hne : body.isEmpty = false) (hok : acceptable_identifiers body = true) :
    parseOnePart nSp aE st ('F' :: body) = .ok { st with fontid := .val body } := by
  simp [parseOnePart, hne, hok]

/-- Evaluation of an empty `F` segment in allow-empty mode. -/
theorem parseOnePart_F_empty (nSp : Bool) (st : FontQualifiers) :
    parseOnePart nSp true st ['F'] = .ok { st with fontid := .empty } := by
  simp [parseOnePart]

/-- Evaluation of an `E` segment with a non-empty valid identifier. -/
theorem parseOnePart_E_val (nSp aE : Bool) (st : FontQualifiers) (body : List Char)
    (hne : body.isEmpty = false) (hok : acceptable_identifiers body = true) :
    parseOnePart nSp aE st ('E' :: body) = .ok { st with encoding := .val body } := by
  simp [parseOnePart, hne, hok]

/-- Evaluation of an empty `E` segment in allow-empty mode. -/
theorem parseOnePart_E_empty (nSp : Bool) (st : FontQualifiers) :
    parseOnePart nSp true st ['E'] = .ok { st with encoding := .empty } := by
  simp [parseOnePart]

/-- Evaluation of an `f` segment with a space and an integer territory. -/
theorem parseOnePart_f_val (nSp aE : Bool) (st : FontQualifiers) (body : List Char) (t : Int)
    (hne : body.isEmpty = false) (hsp : ' ' ∈ body)
    (ht : pyInt (body.takeWhile (fun c => c ≠ ' ')) = some t) :
    parseOnePart nSp aE st ('f' :: body) =
      .ok { st with fontlocal := .val (t, (body.dropWhile (fun c => c ≠ ' ')).tail) } := by
  have ht2 : pyInt (List.takeWhile (fun c => !decide (c = ' ')) body) = some t := by
    simpa using ht
  simp [parseOnePart, hne, hsp, ht2]

/-- Evaluation of an `e` segment with a space and an integer territory. -/
theorem parseOnePart_e_val (nSp aE : Bool) (st : FontQualifiers) (body : List Char) (t : Int)
    (hne : body.isEmpty = false) (hsp : ' ' ∈ body)
    (ht : pyInt (body.takeWhile (fun c => c ≠ ' ')) = some t) :
    parseOnePart nSp aE st ('e' :: body) =
      .ok { st with encodinglocal := .val (t, (body.dropWhile (fun c => c ≠ ' ')).tail) } := by
  have ht2 : pyInt (List.takeWhile (fun c => !decide (c = ' ')) body) = some t := by
    simpa using ht
  simp [parseOnePart, hne, hsp, ht2]

/-- Evaluation of an `M` segment whose matrix text parses. -/
theorem parseOnePart_M_val (nSp aE : Bool) (st : FontQualifiers) (body : List Char)
    (m : List Q) (hne : body.isEmpty = false) (hm : parseMatrixField nSp body = .ok m) :
    parseOnePart nSp aE st ('M' :: body) = .ok { st with matrix := .val m } := by
  simp [parseOnePart, hne, hm]

/-- Test for the value state of a field. -/
def FieldVal.isVal {α : Type} : FieldVal α → Bool
  | .val _ => true
  | _ => false

/-- A non-empty string of printable characters (0x21-0x7E) passes the
identifier check. -/
theorem acceptable_identifiers_of_range (s : List Char) (hne : s ≠ [])
    (hchars : ∀ c ∈ s, 0x21 ≤ c.toNat ∧ c.toNat ≤ 0x7e) :
    acceptable_identifiers s = true := by
  unfold acceptable_identifiers
  have hlast : s.getLast? ≠ some '\n' := by
    intro h
    obtain ⟨hn, heq⟩ := List.mem_getLast?_eq_getLast (Option.mem_def.2 h)
    have hmem : '\n' ∈ s := heq ▸ List.getLast_mem hn
    exact absurd (hchars '\n' hmem) (by decide)
  rw [if_neg hlast]
  simp only [Bool.and_eq_true, List.all_eq_true]
  constructor
  · cases s with
    | nil => exact absurd rfl hne
    | cons a t => rfl
  · intro c hc
    have := hchars c hc
    simp only [Bool.and_eq_true, decide_eq_true_eq]
    exact this

/-- C6 counterexample: the claim quantifies over all strings of printable
characters (0x21-0x7E), but the separator `\` itself is 0x5C: the string
`"a\Eb"` satisfies every hypothesis yet parses with `font_id = "a"`,
not the whole string. -/
theorem C6_counterexample :
    ("a\\Eb".data : List Char).all (fun c => 0x21 ≤ c.toNat && c.toNat ≤ 0x7e) = true ∧
    ("a\\Eb".data : List Char).head? ≠ some '\\' ∧
    mkFontQualifiers "a\\Eb".data false false =
      .ok ⟨.val ['a'], .unset, .val ['b'], .unset, .unset⟩ ∧
    (FieldVal.val "a\\Eb".data : FieldVal (List Char)) ≠ .val ['a'] := by decide

/-- C6 amended: for every non-empty string of printable characters
(0x21-0x7E) that contains no separator character at all, parsing yields
exactly `font_id = S` with everything else unset; and a qualifier set
whose only field in the value state is font_id serialises to the bare
identifier with no separator or marker. -/
theorem C6_bare_identifier (s : List Char) (nSp aE : Bool)
    (hne : s ≠ [])
    (hchars : ∀ c ∈ s, 0x21 ≤ c.toNat ∧ c.toNat ≤ 0x7e)
    (hsep : '\\' ∉ s) :
    mkFontQualifiers s nSp aE = .ok ⟨.val s, .unset, .unset, .unset, .unset⟩ ∧
    (∀ (qs : FontQualifiers) (id : List Char),
      qs.fontid = .val id → qs.fontlocal.isVal = false → qs.encoding.isVal = false →
      qs.encodinglocal.isVal = false → qs.matrix.isVal = false →
      qs.font_string = id) := by
  constructor
  · have hie : s.isEmpty = false := by
      cases s with
      | nil => exact absurd rfl hne
      | cons a t => rfl
    have hhead : s.head? ≠ some '\\' := by
      intro h
      cases s with
      | nil => exact absurd h (by simp)
      | cons a t =>
        obtain rfl : a = '\\' := by simpa using h
        exact hsep (List.mem_cons_self _ _)
    have hnb : '\\' ∉ 'F' :: s := by
      intro h
      rcases List.mem_cons.1 h with h | h
      · exact absurd h.symm (by decide)
      · exact hsep h
    have hsegs : fieldSegments s = ['F' :: s] := by
      unfold fieldSegments normalizeFQ
      rw [if_neg hhead, pySplit_cons_sep, pySplit_no_sep _ _ hnb]
      rfl
    unfold mkFontQualifiers FontQualifiers.parse
    rw [if_neg (by simp [hie]), hsegs]
    simp only [parseParts,
      parseOnePart_F_val nSp aE emptyFQ s hie (acceptable_identifiers_of_range s hne hchars)]
    rfl
  · intro qs id hid h1 h2 h3 h4
    obtain ⟨f1, f2, f3, f4, f5⟩ := qs
    simp only at hid h1 h2 h3 h4
    subst hid
    cases f2 <;> cases f3 <;> cases f4 <;> cases f5 <;>
      first
        | rfl
        | simp [FieldVal.isVal] at h1 h2 h3 h4

/-- C6 witness: the amended statement at the identifier "Selwyn". -/
theorem C6_witness :
    mkFontQualifiers "Selwyn".data false false =
      .ok ⟨.val "Selwyn".data, .unset, .unset, .unset, .unset⟩ :=
  (C6_bare_identifier "Selwyn".data false false (by decide) (by decide) (by decide)).1

/-- Components of a matrix field after stripping leading spaces and
removing one trailing empty component (the normalisation the claim
describes). -/
def matrixComponents (body : List Char) : List (List Char) :=
  let mp := pySplit ' ' (body.dropWhile (fun c => c = ' '))
  if mp.getLast? = some [] then mp.dropLast else mp

/-- The component conversion fails exactly when some component is not an
integer. -/
theorem intsOf_eq_none_iff (l : List (List Char)) :
    intsOf l = none ↔ ∃ c ∈ l, pyInt c = none := by
  induction l with
  | nil => simp [intsOf]
  | cons c rest ih =>
    simp only [intsOf]
    cases hc : pyInt c with
    | none =>
      constructor
      · intro _; exact ⟨c, List.mem_cons_self _ _, hc⟩
      · intro _; rfl
    | some v =>
      cases hr : intsOf rest with
      | none =>
        constructor
        · intro _
          obtain ⟨x, hx, hpx⟩ := ih.1 hr
          exact ⟨x, List.mem_cons_of_mem _ hx, hpx⟩
        · intro _; rfl
      | some vs =>
        constructor
        · intro h; exact absurd h (by simp)
        · rintro ⟨x, hx, hpx⟩
          rcases List.mem_cons.1 hx with rfl | hx2
          · rw [hpx] at hc; exact absurd hc (by simp)
          · rw [ih.2 ⟨x, hx2, hpx⟩] at hr; exact absurd hr (by simp)

/-- On success, the produced integers correspond to the components. -/
theorem intsOf_some_forall (l : List (List Char)) (vs : List Int) (h : intsOf l = some vs) :
    (∀ v ∈ vs, ∃ c ∈ l, pyInt c = some v) ∧ (∀ c ∈ l, ∃ v ∈ vs, pyInt c = some v) := by
  induction l generalizing vs with
  | nil =>
    obtain rfl : vs = [] := by simpa [intsOf] using h.symm
    simp
  | cons c rest ih =>
    simp only [intsOf] at h
    cases hc : pyInt c with
    | none => rw [hc] at h; exact absurd h (by simp)
    | some v =>
      rw [hc] at h
      cases hr : intsOf rest with
      | none => rw [hr] at h; exact absurd h (by simp)
      | some vs2 =>
        rw [hr] at h
        obtain rfl : vs = v :: vs2 := by simpa using h.symm
        obtain ⟨ih1, ih2⟩ := ih vs2 hr
        constructor
        · intro w hw
          rcases List.mem_cons.1 hw with rfl | hw2
          · exact ⟨c, List.mem_cons_self _ _, hc⟩
          · obtain ⟨x, hx, hpx⟩ := ih1 w hw2
            exact ⟨x, List.mem_cons_of_mem _ hx, hpx⟩
        · intro x hx
          rcases List.mem_cons.1 hx with rfl | hx2
          · exact ⟨v, List.mem_cons_self _ _, hc⟩
          · obtain ⟨w, hw, hpw⟩ := ih2 x hx2
            exact ⟨w, List.mem_cons_of_mem _ hw, hpw⟩

/-- The count-and-value stage fails (always with `BadMatrix`) exactly when
the component count differs from 6, a component is not an integer, or a
component's value reaches 2^31 in magnitude. -/
theorem matrixRest_error_iff (mp2 : List (List Char)) (st : List Char) :
    (∃ m, matrixRest mp2 st = .error (.badMatrix m)) ↔
      (mp2.length ≠ 6 ∨ (∃ c ∈ mp2, pyInt c = none) ∨
        (∃ c ∈ mp2, ∃ v, pyInt c = some v ∧ (2 ^ 31 ≤ v ∨ v ≤ -(2 ^ 31)))) := by
  unfold matrixRest
  by_cases hlen : mp2.length ≠ 6
  · rw [if_pos hlen]
    constructor
    · intro _; exact Or.inl hlen
    · intro _; exact ⟨_, rfl⟩
  · rw [if_neg hlen]
    cases hio : intsOf mp2 with
    | none =>
      constructor
      · intro _; exact Or.inr (Or.inl ((intsOf_eq_none_iff mp2).1 hio))
      · intro _; exact ⟨_, rfl⟩
    | some vs =>
      obtain ⟨hv1, hv2⟩ := intsOf_some_forall mp2 vs hio
      dsimp only
      by_cases hbig : vs.any (fun v => decide (2 ^ 31 ≤ v)) = true
      · rw [if_pos hbig]
        constructor
        · intro _
          simp only [List.any_eq_true, decide_eq_true_eq] at hbig
          obtain ⟨v, hvmem, hvge⟩ := hbig
          obtain ⟨c, hcm, hpc⟩ := hv1 v hvmem
          exact Or.inr (Or.inr ⟨c, hcm, v, hpc, Or.inl hvge⟩)
        · intro _; exact ⟨_, rfl⟩
      · rw [if_neg hbig]
        by_cases hsmall : vs.any (fun v => decide (v ≤ -(2 ^ 31))) = true
        · rw [if_pos hsmall]
          constructor
          · intro _
            simp only [List.any_eq_true, decide_eq_true_eq] at hsmall
            obtain ⟨v, hvmem, hvle⟩ := hsmall
            obtain ⟨c, hcm, hpc⟩ := hv1 v hvmem
            exact Or.inr (Or.inr ⟨c, hcm, v, hpc, Or.inr hvle⟩)
          · intro _; exact ⟨_, rfl⟩
        · rw [if_neg hsmall]
          constructor
          · rintro ⟨m, hm⟩; exact absurd hm (by simp)
          · intro hcond
            exfalso
            rcases hcond with h | h | h
            · exact hlen h
            · obtain ⟨c, hcm, hpc⟩ := h
              obtain ⟨v, _, hpv⟩ := hv2 c hcm
              rw [hpc] at hpv
              exact absurd hpv (by simp)
            · obtain ⟨c, hcm, v, hpc, hrange⟩ := h
              obtain ⟨w, hw, hpw⟩ := hv2 c hcm
              rw [hpc] at hpw
              obtain rfl : v = w := by simpa using hpw
              rcases hrange with hr | hr
              · exact hbig (by
                  simp only [List.any_eq_true, decide_eq_true_eq]
                  exact ⟨v, hw, hr⟩)
              · exact hsmall (by
                  simp only [List.any_eq_true, decide_eq_true_eq]
                  exact ⟨v, hw, hr⟩)

/-- C5: for a non-empty matrix field text, parsing fails (always with
`BadMatrix`) if and only if the required trailing space is absent, or the
normalised component count differs from 6, or a component is not an
integer, or a component reaches 2^31 in magnitude; the count error
reports the actual count; and the boundary values 2^31 and -2^31 fail
while 2^31 - 1 and -(2^31 - 1) succeed. -/
theorem C5_matrix_error_conditions (nSp : Bool) (body : List Char) (hne : body ≠ []) :
    ((∃ m, parseMatrixField nSp body = .error (.badMatrix m)) ↔
      ((nSp = true ∧
          (pySplit ' ' (body.dropWhile (fun c => c = ' '))).getLast? ≠ some []) ∨
        (matrixComponents body).length ≠ 6 ∨
        (∃ c ∈ matrixComponents body, pyInt c = none) ∨
        (∃ c ∈ matrixComponents body, ∃ v,
          pyInt c = some v ∧ (2 ^ 31 ≤ v ∨ v ≤ -(2 ^ 31))))) ∧
    (¬(nSp = true ∧
        (pySplit ' ' (body.dropWhile (fun c => c = ' '))).getLast? ≠ some []) →
      (matrixComponents body).length ≠ 6 →
      parseMatrixField nSp body =
        .error (.badMatrix (msgMatrixCount (matrixComponents body).length
          (body.dropWhile (fun c => c = ' '))))) ∧
    parseMatrixField false "2147483648 0 0 0 0 0".data =
      .error (.badMatrix (msgMatrixBig "2147483648 0 0 0 0 0".data)) ∧
    parseMatrixField false "-2147483648 0 0 0 0 0".data =
      .error (.badMatrix (msgMatrixBig "-2147483648 0 0 0 0 0".data)) ∧
    parseMatrixField false "2147483647 0 0 0 0 0".data =
      .ok (mkMatrix [2147483647, 0, 0, 0, 0, 0]) ∧
    parseMatrixField false "-2147483647 0 0 0 0 0".data =
      .ok (mkMatrix [-2147483647, 0, 0, 0, 0, 0]) := by
  refine ⟨?_, ?_, by decide, by decide, by decide, by decide⟩
  · by_cases htr :
      (pySplit ' ' (body.dropWhile (fun c => c = ' '))).getLast? = some []
    · have hpm : parseMatrixField nSp body =
          matrixRest (pySplit ' ' (body.dropWhile (fun c => c = ' '))).dropLast
            (body.dropWhile (fun c => c = ' ')) := by
        simp only [parseMatrixField]
        rw [if_pos htr]
      have hcomp : matrixComponents body =
          (pySplit ' ' (body.dropWhile (fun c => c = ' '))).dropLast := by
        simp only [matrixComponents]
        rw [if_pos htr]
      rw [hpm, hcomp, matrixRest_error_iff]
      constructor
      · intro h; exact Or.inr h
      · intro h
        rcases h with ⟨_, hcontra⟩ | h
        · exact absurd htr hcontra
        · exact h
    · by_cases hnSp : nSp = true
      · have hpm : parseMatrixField nSp body =
            .error (.badMatrix (msgMatrixSpace (body.dropWhile (fun c => c = ' ')))) := by
          simp only [parseMatrixField]
          rw [if_neg htr, hnSp, if_pos rfl]
        rw [hpm]
        constructor
        · intro _; exact Or.inl ⟨hnSp, htr⟩
        · intro _; exact ⟨_, rfl⟩
      · have hnSp2 : nSp = false := by
          cases nSp
          · rfl
          · exact absurd rfl hnSp
        have hpm : parseMatrixField nSp body =
            matrixRest (pySplit ' ' (body.dropWhile (fun c => c = ' ')))
              (body.dropWhile (fun c => c = ' ')) := by
          simp only [parseMatrixField]
          rw [if_neg htr, hnSp2, if_neg (by simp)]
        have hcomp : matrixComponents body =
            pySplit ' ' (body.dropWhile (fun c => c = ' ')) := by
          simp only [matrixComponents]
          rw [if_neg htr]
        rw [hpm, hcomp, matrixRest_error_iff]
        constructor
        · intro h; exact Or.inr h
        · intro h
          rcases h with ⟨hcontra, _⟩ | h
          · exact absurd hcontra hnSp
          · exact h
  · intro hnotr hlen
    by_cases htr :
      (pySplit ' ' (body.dropWhile (fun c => c = ' '))).getLast? = some []
    · have hcomp : matrixComponents body =
          (pySplit ' ' (body.dropWhile (fun c => c = ' '))).dropLast := by
        simp only [matrixComponents]
        rw [if_pos htr]
      simp only [parseMatrixField]
      rw [if_pos htr]
      rw [hcomp] at hlen ⊢
      unfold matrixRest
      rw [if_pos hlen]
    · have hnSp2 : nSp = false := by
        cases nSp
        · rfl
        · exact absurd ⟨rfl, htr⟩ hnotr
      have hcomp : matrixComponents body =
          pySplit ' ' (body.dropWhile (fun c => c = ' ')) := by
        simp only [matrixComponents]
        rw [if_neg htr]
      simp only [parseMatrixField]
      rw [if_neg htr, hnSp2, if_neg (by simp)]
      rw [hcomp] at hlen ⊢
      unfold matrixRest
      rw [if_pos hlen]

/-- C5 witness: the error-condition theorem applied to the two-component
text "0 0", which fails with the count error reporting 2. -/
theorem C5_witness :
    parseMatrixField false "0 0".data =
      .error (.badMatrix (msgMatrixCount (matrixComponents "0 0".data).length
        (("0 0".data : List Char).dropWhile (fun c => c = ' ')))) :=
  (C5_matrix_error_conditions false "0 0".data (by decide)).2.1 (by simp) (by decide)

/-- Rejoining the segments of a split gives back the original string. -/
theorem joinSep_pySplit (sep : Char) (l : List Char) :
    joinSep sep (pySplit sep l) = l := by
  induction l with
  | nil => rfl
  | cons c rest ih =>
    simp only [pySplit]
    cases h : pySplit sep rest with
    | nil => exact absurd h (pySplit_ne_nil sep rest)
    | cons seg segs =>
      dsimp only
      rw [h] at ih
      by_cases hc : c = sep
      · subst hc
        rw [if_pos rfl]
        simp only [joinSep, List.nil_append]
        rw [ih]
      · rw [if_neg hc]
        cases segs with
        | nil =>
          simp only [joinSep] at ih ⊢
          rw [ih]
        | cons s2 ss =>
          simp only [joinSep, List.cons_append] at ih ⊢
          rw [ih]

/-- Position of a distinguished segment inside a rejoined list: the text
of the segment starts right after a separator and the kind character, at
an offset determined by the lengths of everything before it. -/
theorem joinSep_decompose (sep : Char) (p0 : List Char) (ps1 : List (List Char))
    (seg : List Char) (ps2 : List (List Char)) :
    ∃ u v, joinSep sep (p0 :: (ps1 ++ seg :: ps2)) = u ++ sep :: (seg ++ v) ∧
      u.length = p0.length + ((ps1.map (fun p => p.length + 1)).sum) := by
  induction ps1 generalizing p0 with
  | nil =>
    cases ps2 with
    | nil => exact ⟨p0, [], by simp [joinSep], by simp⟩
    | cons s2 ss =>
      refine ⟨p0, sep :: joinSep sep (s2 :: ss), ?_, by simp⟩
      show joinSep sep (p0 :: seg :: s2 :: ss) =
        p0 ++ sep :: (seg ++ sep :: joinSep sep (s2 :: ss))
      simp [joinSep]
  | cons p1 ps1' ih =>
    obtain ⟨u', v, hj, hl⟩ := ih p1
    refine ⟨p0 ++ sep :: u', v, ?_, ?_⟩
    · rw [List.cons_append]
      have h2 : joinSep sep (p0 :: p1 :: (ps1' ++ seg :: ps2)) =
          p0 ++ sep :: joinSep sep (p1 :: (ps1' ++ seg :: ps2)) := rfl
      rw [h2, hj]
      simp
    · simp only [List.length_append, List.length_cons, List.map_cons, List.sum_cons] at hl ⊢
      omega

/-- Offset invariant of the `find_field` loop: a found offset points at
the text of a segment whose first character is the wanted kind. -/
theorem findFieldLoop_decompose (w : Char) (ps : List (List Char)) :
    ∀ (off o : Nat), findFieldLoop w off ps = .ok (some o) →
      ∃ ps1 t ps2, ps = ps1 ++ (w :: t) :: ps2 ∧
        o = off + ((ps1.map (fun p => p.length + 1)).sum) + 2 := by
  induction ps with
  | nil => intro off o h; exact absurd h (by simp [findFieldLoop])
  | cons p rest ih =>
    intro off o h
    cases p with
    | nil => exact absurd h (by simp [findFieldLoop])
    | cons q pt =>
      simp only [findFieldLoop] at h
      by_cases hq : q = w
      · rw [if_pos hq] at h
        obtain rfl : off + 2 = o := by simpa using h
        exact ⟨[], pt, rest, by rw [hq]; rfl, by simp⟩
      · rw [if_neg hq] at h
        obtain ⟨ps1, t, ps2, hps, ho⟩ := ih (off + 2 + pt.length) o h
        refine ⟨(q :: pt) :: ps1, t, ps2, by rw [hps]; rfl, ?_⟩
        simp only [List.map_cons, List.sum_cons, List.length_cons] at ho ⊢
        omega

/-- General offset property of `find_field`: a returned offset is either
0 (the bare-name shortcut) or the position right after one separator and
the wanted kind character in the original string. -/
theorem find_field_offset_position (s : List Char) (w : Char) (o : Nat)
    (h : FontQualifiers.find_field s w = .ok (some o)) :
    o = 0 ∨ ∃ u rest, s = u ++ '\\' :: w :: rest ∧ o = u.length + 2 := by
  simp only [FontQualifiers.find_field] at h
  split at h
  · exact absurd h (by simp)
  · split at h
    · exact Or.inl (by simpa using h.symm)
    · right
      cases hsp : pySplit '\\' s with
      | nil => exact absurd hsp (pySplit_ne_nil _ _)
      | cons p0 tailps =>
        rw [hsp] at h
        simp only [List.headD_cons, List.tail_cons] at h
        obtain ⟨ps1, t, ps2, hps, ho⟩ := findFieldLoop_decompose w tailps p0.length o h
        obtain ⟨u, v, hjoin2, hlen⟩ := joinSep_decompose '\\' p0 ps1 (w :: t) ps2
        have hs : s = u ++ '\\' :: ((w :: t) ++ v) := by
          conv_lhs => rw [← joinSep_pySplit '\\' s, hsp, hps]
          exact hjoin2
        exact ⟨u, t ++ v, by simpa using hs, by omega⟩

/-- C8: the offsets returned on the two worked strings, including
not-found for an unknown kind, and in general every returned offset is
the position of the first character of the matched segment's text within
the original string. -/
theorem C8_find_field_offsets :
    FontQualifiers.find_field "\\FHomerton.Medium\\ELatin1\\M0 0 0 0 0 0".data 'F' =
      .ok (some 2) ∧
    FontQualifiers.find_field "\\FHomerton.Medium\\ELatin1\\M0 0 0 0 0 0".data 'E' =
      .ok (some 19) ∧
    FontQualifiers.find_field "\\FHomerton.Medium\\ELatin1\\M0 0 0 0 0 0".data 'M' =
      .ok (some 27) ∧
    FontQualifiers.find_field "\\FHomerton.Medium\\ELatin1\\M0 0 0 0 0 0".data 'X' =
      .ok none ∧
    FontQualifiers.find_field "Homerton.Medium\\ELatin1\\M0 0 0 0 0 0".data 'F' =
      .ok (some 0) ∧
    FontQualifiers.find_field "Homerton.Medium\\ELatin1\\M0 0 0 0 0 0".data 'E' =
      .ok (some 17) ∧
    (∀ (s : List Char) (w : Char) (o : Nat),
      FontQualifiers.find_field s w = .ok (some o) →
      o = 0 ∨ ∃ u rest, s = u ++ '\\' :: w :: rest ∧ o = u.length + 2) :=
  ⟨by decide, by decide, by decide, by decide, by decide, by decide,
   find_field_offset_position⟩


/-- A successful dispatch only writes the field named by the segment's
kind character; all other fields are untouched. -/
theorem parseOnePart_preserve (nSp aE : Bool) (st st2 : FontQualifiers) (p : List Char)
    (h : parseOnePart nSp aE st p = .ok st2) :
    (p.head? ≠ some 'F' → st2.fontid = st.fontid) ∧
    (p.head? ≠ some 'f' → st2.fontlocal = st.fontlocal) ∧
    (p.head? ≠ some 'E' → st2.encoding = st.encoding) ∧
    (p.head? ≠ some 'e' → st2.encodinglocal = st.encodinglocal) ∧
    (p.head? ≠ some 'M' → st2.matrix = st.matrix) := by
  cases p with
  | nil => exact absurd h (by simp [parseOnePart])
  | cons q body =>
    simp only [parseOnePart, List.head?_cons] at h ⊢
    repeat' split at h
    all_goals
      first
        | exact Except.noConfusion h
        | · obtain rfl := Except.ok.inj h
            refine ⟨fun h1 => ?_, fun h2 => ?_, fun h3 => ?_, fun h4 => ?_, fun h5 => ?_⟩ <;>
              first
                | rfl
                | simp_all

/-- The success and the written value of a dispatch do not depend on the
incoming state: the same segment applied to any other state succeeds and
writes the same value, keeping that state's other fields. -/
theorem parseOnePart_state_swap (nSp aE : Bool) (st st0 st2 : FontQualifiers) (p : List Char)
    (h : parseOnePart nSp aE st p = .ok st2) :
    parseOnePart nSp aE st0 p = .ok
      ⟨if p.head? = some 'F' then st2.fontid else st0.fontid,
       if p.head? = some 'f' then st2.fontlocal else st0.fontlocal,
       if p.head? = some 'E' then st2.encoding else st0.encoding,
       if p.head? = some 'e' then st2.encodinglocal else st0.encodinglocal,
       if p.head? = some 'M' then st2.matrix else st0.matrix⟩ := by
  cases p with
  | nil => exact absurd h (by simp [parseOnePart])
  | cons q body =>
    simp only [parseOnePart, List.head?_cons] at h ⊢
    repeat' split at h
    all_goals
      first
        | exact Except.noConfusion h
        | · obtain rfl := Except.ok.inj h
            simp_all

/-- A successful fold over an appended segment list splits into two
successful folds. -/
theorem parseParts_append_ok (nSp aE : Bool) (l1 l2 : List (List Char)) :
    ∀ st st', parseParts nSp aE st (l1 ++ l2) = .ok st' →
      ∃ st1, parseParts nSp aE st l1 = .ok st1 ∧ parseParts nSp aE st1 l2 = .ok st' := by
  induction l1 with
  | nil => intro st st' h; exact ⟨st, rfl, h⟩
  | cons p l1' ih =>
    intro st st' h
    rw [List.cons_append] at h
    simp only [parseParts] at h
    cases heq : parseOnePart nSp aE st p with
    | error e => rw [heq] at h; exact Except.noConfusion h
    | ok st2 =>
      rw [heq] at h
      obtain ⟨st1, h1, h2⟩ := ih st2 st' h
      refine ⟨st1, ?_, h2⟩
      simp only [parseParts]
      rw [heq]
      exact h1

/-- A fold over segments none of which names a given field leaves that
field unchanged. -/
theorem parseParts_preserve (nSp aE : Bool) (l : List (List Char)) :
    ∀ st st', parseParts nSp aE st l = .ok st' →
      ((∀ p ∈ l, p.head? ≠ some 'F') → st'.fontid = st.fontid) ∧
      ((∀ p ∈ l, p.head? ≠ some 'f') → st'.fontlocal = st.fontlocal) ∧
      ((∀ p ∈ l, p.head? ≠ some 'E') → st'.encoding = st.encoding) ∧
      ((∀ p ∈ l, p.head? ≠ some 'e') → st'.encodinglocal = st.encodinglocal) ∧
      ((∀ p ∈ l, p.head? ≠ some 'M') → st'.matrix = st.matrix) := by
  induction l with
  | nil =>
    intro st st' h
    obtain rfl := Except.ok.inj h
    exact ⟨fun _ => rfl, fun _ => rfl, fun _ => rfl, fun _ => rfl, fun _ => rfl⟩
  | cons p rest ih =>
    intro st st' h
    simp only [parseParts] at h
    cases heq : parseOnePart nSp aE st p with
    | error e => rw [heq] at h; exact Except.noConfusion h
    | ok st2 =>
      rw [heq] at h
      have hone := parseOnePart_preserve nSp aE st st2 p heq
      have hrest := ih st2 st' h
      refine ⟨fun hall => ?_, fun hall => ?_, fun hall => ?_, fun hall => ?_, fun hall => ?_⟩
      · exact (hrest.1 (fun x hx => hall x (List.mem_cons_of_mem _ hx))).trans
          (hone.1 (hall p (List.mem_cons_self _ _)))
      · exact (hrest.2.1 (fun x hx => hall x (List.mem_cons_of_mem _ hx))).trans
          (hone.2.1 (hall p (List.mem_cons_self _ _)))
      · exact (hrest.2.2.1 (fun x hx => hall x (List.mem_cons_of_mem _ hx))).trans
          (hone.2.2.1 (hall p (List.mem_cons_self _ _)))
      · exact (hrest.2.2.2.1 (fun x hx => hall x (List.mem_cons_of_mem _ hx))).trans
          (hone.2.2.2.1 (hall p (List.mem_cons_self _ _)))
      · exact (hrest.2.2.2.2 (fun x hx => hall x (List.mem_cons_of_mem _ hx))).trans
          (hone.2.2.2.2 (hall p (List.mem_cons_self _ _)))

/-- If every segment individually parses (from the fresh state), the fold
succeeds from any state. -/
theorem parseParts_ok_of_all (nSp aE : Bool) (l : List (List Char))
    (hok : ∀ p ∈ l, ∃ st2, parseOnePart nSp aE emptyFQ p = .ok st2) :
    ∀ st, ∃ st', parseParts nSp aE st l = .ok st' := by
  induction l with
  | nil => intro st; exact ⟨st, rfl⟩
  | cons p rest ih =>
    intro st
    obtain ⟨st2, h2⟩ := hok p (List.mem_cons_self _ _)
    have h3 := parseOnePart_state_swap nSp aE emptyFQ st st2 p h2
    obtain ⟨st', h'⟩ := ih (fun x hx => hok x (List.mem_cons_of_mem _ hx)) _
    refine ⟨st', ?_⟩
    simp only [parseParts]
    rw [h3]
    exact h'

/-- C10: when every field segment of a string individually parses, the
whole parse succeeds, and a field named by several segments stores the
value assigned by the last segment of that kind (each later assignment
overwrites the earlier one); stated for each of the five field kinds. -/
theorem C10_last_occurrence_wins (nSp aE : Bool) (s : List Char) (hs : s ≠ [])
    (hok : ∀ p ∈ fieldSegments s, ∃ st2, parseOnePart nSp aE emptyFQ p = .ok st2) :
    (mkFontQualifiers s nSp aE).isOk = true ∧
    (∀ pre t suf qs stLast,
      fieldSegments s = pre ++ ('F' :: t) :: suf →
      (∀ p ∈ suf, p.head? ≠ some 'F') →
      parseOnePart nSp aE emptyFQ ('F' :: t) = .ok stLast →
      mkFontQualifiers s nSp aE = .ok qs →
      qs.fontid = stLast.fontid) ∧
    (∀ pre t suf qs stLast,
      fieldSegments s = pre ++ ('f' :: t) :: suf →
      (∀ p ∈ suf, p.head? ≠ some 'f') →
      parseOnePart nSp aE emptyFQ ('f' :: t) = .ok stLast →
      mkFontQualifiers s nSp aE = .ok qs →
      qs.fontlocal = stLast.fontlocal) ∧
    (∀ pre t suf qs stLast,
      fieldSegments s = pre ++ ('E' :: t) :: suf →
      (∀ p ∈ suf, p.head? ≠ some 'E') →
      parseOnePart nSp aE emptyFQ ('E' :: t) = .ok stLast →
      mkFontQualifiers s nSp aE = .ok qs →
      qs.encoding = stLast.encoding) ∧
    (∀ pre t suf qs stLast,
      fieldSegments s = pre ++ ('e' :: t) :: suf →
      (∀ p ∈ suf, p.head? ≠ some 'e') →
      parseOnePart nSp aE emptyFQ ('e' :: t) = .ok stLast →
      mkFontQualifiers s nSp aE = .ok qs →
      qs.encodinglocal = stLast.encodinglocal) ∧
    (∀ pre t suf qs stLast,
      fieldSegments s = pre ++ ('M' :: t) :: suf →
      (∀ p ∈ suf, p.head? ≠ some 'M') →
      parseOnePart nSp aE emptyFQ ('M' :: t) = .ok stLast →
      mkFontQualifiers s nSp aE = .ok qs →
      qs.matrix = stLast.matrix) := by
  have hie : s.isEmpty = false := by
    cases s with
    | nil => exact absurd rfl hs
    | cons a t => rfl
  have hmk : mkFontQualifiers s nSp aE = parseParts nSp aE emptyFQ (fieldSegments s) := by
    unfold mkFontQualifiers FontQualifiers.parse
    rw [if_neg (by simp [hie])]
  refine ⟨?_, ?_, ?_, ?_, ?_, ?_⟩
  · obtain ⟨st', h'⟩ := parseParts_ok_of_all nSp aE _ hok emptyFQ
    rw [hmk, h']
    rfl
  · intro pre t suf qs stLast hsegs hnoF hlast hqs
    rw [hmk, hsegs] at hqs
    obtain ⟨st1, h1, h2⟩ := parseParts_append_ok nSp aE pre _ emptyFQ qs hqs
    simp only [parseParts] at h2
    cases heq : parseOnePart nSp aE st1 ('F' :: t) with
    | error e => rw [heq] at h2; exact Except.noConfusion h2
    | ok stmid =>
      rw [heq] at h2
      have hswap := parseOnePart_state_swap nSp aE emptyFQ st1 stLast ('F' :: t) hlast
      obtain rfl := Except.ok.inj (hswap.symm.trans heq)
      have hpres := ((parseParts_preserve nSp aE suf _ qs h2).1) hnoF
      rw [hpres]
      simp
  · intro pre t suf qs stLast hsegs hnoF hlast hqs
    rw [hmk, hsegs] at hqs
    obtain ⟨st1, h1, h2⟩ := parseParts_append_ok nSp aE pre _ emptyFQ qs hqs
    simp only [parseParts] at h2
    cases heq : parseOnePart nSp aE st1 ('f' :: t) with
    | error e => rw [heq] at h2; exact Except.noConfusion h2
    | ok stmid =>
      rw [heq] at h2
      have hswap := parseOnePart_state_swap nSp aE emptyFQ st1 stLast ('f' :: t) hlast
      obtain rfl := Except.ok.inj (hswap.symm.trans heq)
      have hpres := ((parseParts_preserve nSp aE suf _ qs h2).2.1) hnoF
      rw [hpres]
      simp
  · intro pre t suf qs stLast hsegs hnoF hlast hqs
    rw [hmk, hsegs] at hqs
    obtain ⟨st1, h1, h2⟩ := parseParts_append_ok nSp aE pre _ emptyFQ qs hqs
    simp only [parseParts] at h2
    cases heq : parseOnePart nSp aE st1 ('E' :: t) with
    | error e => rw [heq] at h2; exact Except.noConfusion h2
    | ok stmid =>
      rw [heq] at h2
      have hswap := parseOnePart_state_swap nSp aE emptyFQ st1 stLast ('E' :: t) hlast
      obtain rfl := Except.ok.inj (hswap.symm.trans heq)
      have hpres := ((parseParts_preserve nSp aE suf _ qs h2).2.2.1) hnoF
      rw [hpres]
      simp
  · intro pre t suf qs stLast hsegs hnoF hlast hqs
    rw [hmk, hsegs] at hqs
    obtain ⟨st1, h1, h2⟩ := parseParts_append_ok nSp aE pre _ emptyFQ qs hqs
    simp only [parseParts] at h2
    cases heq : parseOnePart nSp aE st1 ('e' :: t) with
    | error e => rw [heq] at h2; exact Except.noConfusion h2
    | ok stmid =>
      rw [heq] at h2
      have hswap := parseOnePart_state_swap nSp aE emptyFQ st1 stLast ('e' :: t) hlast
      obtain rfl := Except.ok.inj (hswap.symm.trans heq)
      have hpres := ((parseParts_preserve nSp aE suf _ qs h2).2.2.2.1) hnoF
      rw [hpres]
      simp
  · intro pre t suf qs stLast hsegs hnoF hlast hqs
    rw [hmk, hsegs] at hqs
    obtain ⟨st1, h1, h2⟩ := parseParts_append_ok nSp aE pre _ emptyFQ qs hqs
    simp only [parseParts] at h2
    cases heq : parseOnePart nSp aE st1 ('M' :: t) with
    | error e => rw [heq] at h2; exact Except.noConfusion h2
    | ok stmid =>
      rw [heq] at h2
      have hswap := parseOnePart_state_swap nSp aE emptyFQ st1 stLast ('M' :: t) hlast
      obtain rfl := Except.ok.inj (hswap.symm.trans heq)
      have hpres := ((parseParts_preserve nSp aE suf _ qs h2).2.2.2.2) hnoF
      rw [hpres]
      simp

/-- C10 witness: the string `\Fa\Fb` names the font-id field twice; the
parse succeeds (and indeed stores the later value "b"). -/
theorem C10_witness :
    (mkFontQualifiers "\\Fa\\Fb".data false false).isOk = true :=
  (C10_last_occurrence_wins false false "\\Fa\\Fb".data (by decide)
    (by
      intro p hp
      have hsegs : fieldSegments "\\Fa\\Fb".data = [['F', 'a'], ['F', 'b']] := rfl
      rw [hsegs] at hp
      simp only [List.mem_cons, List.not_mem_nil, or_false] at hp
      rcases hp with rfl | rfl
      · exact ⟨_, rfl⟩
      · exact ⟨_, rfl⟩)).1

/-- The fuel argument of the digit extractor is irrelevant once
sufficient. -/
theorem natDigitsRevAux_fuel (f1 : Nat) :
    ∀ (f2 n : Nat), n < f1 → n < f2 → natDigitsRevAux f1 n = natDigitsRevAux f2 n := by
  induction f1 with
  | zero => intro f2 n h1 _; exact absurd h1 (Nat.not_lt_zero n)
  | succ f1' ih =>
    intro f2 n h1 h2
    cases f2 with
    | zero => exact absurd h2 (Nat.not_lt_zero n)
    | succ f2' =>
      simp only [natDigitsRevAux]
      by_cases hn : n = 0
      · rw [if_pos hn, if_pos hn]
      · rw [if_neg hn, if_neg hn]
        have hd : n / 10 < n := Nat.div_lt_self (Nat.pos_of_ne_zero hn) (by norm_num)
        rw [ih f2' (n / 10) (by omega) (by omega)]

/-- Unfolding equation of the digit extractor. -/
theorem natDigitsRev_eq (n : Nat) :
    natDigitsRev n = if n = 0 then [] else n % 10 :: natDigitsRev (n / 10) := by
  by_cases hn : n = 0
  · rw [if_pos hn, hn]; rfl
  · rw [if_neg hn]
    unfold natDigitsRev
    simp only [natDigitsRevAux, if_neg hn]
    have hd : n / 10 < n := Nat.div_lt_self (Nat.pos_of_ne_zero hn) (by norm_num)
    rw [natDigitsRevAux_fuel n (n / 10 + 1) (n / 10) (by omega) (by omega)]
    rfl

/-- All extracted digits are below 10. -/
theorem natDigitsRev_lt10 (n : Nat) : ∀ d ∈ natDigitsRev n, d < 10 := by
  induction n using Nat.strong_induction_on with
  | _ n ih =>
    rw [natDigitsRev_eq]
    by_cases hn : n = 0
    · rw [if_pos hn]; intro d hd; exact absurd hd (List.not_mem_nil d)
    · rw [if_neg hn]
      intro d hd
      rcases List.mem_cons.1 hd with rfl | hd2
      · exact Nat.mod_lt _ (by norm_num)
      · exact ih (n / 10) (Nat.div_lt_self (Nat.pos_of_ne_zero hn) (by norm_num)) d hd2

/-- Value of a most-significant-first digit list. -/
def digitsVal (l : List Nat) : Nat :=
  l.foldl (fun a d => a * 10 + d) 0

/-- The digits of `n` evaluate back to `n`. -/
theorem digitsVal_natDigitsRev (n : Nat) : digitsVal ((natDigitsRev n).reverse) = n := by
  induction n using Nat.strong_induction_on with
  | _ n ih =>
    rw [natDigitsRev_eq]
    by_cases hn : n = 0
    · rw [if_pos hn, hn]; rfl
    · rw [if_neg hn]
      have hd : n / 10 < n := Nat.div_lt_self (Nat.pos_of_ne_zero hn) (by norm_num)
      simp only [List.reverse_cons, digitsVal, List.foldl_append, List.foldl_cons,
        List.foldl_nil]
      have := ih (n / 10) hd
      simp only [digitsVal] at this
      rw [this]
      omega

/-- Facts about the decimal digit characters. -/
theorem digitChar_facts (d : Nat) (hd : d < 10) :
    (Nat.digitChar d).isDigit = true ∧ (Nat.digitChar d).toNat = 48 + d ∧
    Nat.digitChar d ≠ ' ' ∧ Nat.digitChar d ≠ '\\' ∧ Nat.digitChar d ≠ '+' ∧
    Nat.digitChar d ≠ '-' ∧ isPyWs (Nat.digitChar d) = false := by
  interval_cases d <;> exact ⟨rfl, rfl, by decide, by decide, by decide, by decide, rfl⟩

/-- The digit run scanner on a list of digit characters. -/
theorem pyDigitsAux_digits (l : List Char) (hl : ∀ c ∈ l, c.isDigit = true) :
    ∀ acc, pyDigitsAux acc l = some (l.foldl (fun a c => a * 10 + (c.toNat - 48)) acc) := by
  induction l with
  | nil => intro acc; rfl
  | cons c rest ih =>
    intro acc
    have hc := hl c (List.mem_cons_self _ _)
    rw [pyDigitsAux.eq_def]
    simp only [hc, if_pos]
    rw [ih (fun x hx => hl x (List.mem_cons_of_mem _ hx))]
    rfl

/-- The digit run parser on a non-empty list of digit characters. -/
theorem pyDigits_digits (l : List Char) (hne : l ≠ []) (hl : ∀ c ∈ l, c.isDigit = true) :
    pyDigits l = some (l.foldl (fun a c => a * 10 + (c.toNat - 48)) 0) := by
  cases l with
  | nil => exact absurd rfl hne
  | cons c cs =>
    simp only [pyDigits, hl c (List.mem_cons_self _ _), if_pos]
    rw [pyDigitsAux_digits cs (fun x hx => hl x (List.mem_cons_of_mem _ hx))]
    simp only [List.foldl_cons, Nat.zero_mul, Nat.zero_add]

/-- Characters of the decimal rendering of a natural number. -/
theorem natToDec_chars (n : Nat) :
    ∀ c ∈ natToDec n, ∃ d, d < 10 ∧ c = Nat.digitChar d := by
  unfold natToDec
  by_cases hn : n = 0
  · rw [if_pos hn]
    intro c hc
    obtain rfl : c = '0' := by simpa using hc
    exact ⟨0, by norm_num, rfl⟩
  · rw [if_neg hn]
    intro c hc
    obtain ⟨d, hd, rfl⟩ := List.mem_map.1 hc
    exact ⟨d, natDigitsRev_lt10 n d (List.mem_reverse.1 hd), rfl⟩

/-- The decimal rendering of a natural number is non-empty. -/
theorem natToDec_ne_nil (n : Nat) : natToDec n ≠ [] := by
  unfold natToDec
  by_cases hn : n = 0
  · rw [if_pos hn]; exact (by simp)
  · rw [if_neg hn]
    intro h
    rw [List.map_eq_nil_iff, List.reverse_eq_nil_iff, natDigitsRev_eq, if_neg hn] at h
    exact List.noConfusion h

/-- Parsing back the decimal rendering of a natural number. -/
theorem pyDigits_natToDec (n : Nat) : pyDigits (natToDec n) = some n := by
  have hdig : ∀ c ∈ natToDec n, c.isDigit = true := by
    intro c hc
    obtain ⟨d, hd, rfl⟩ := natToDec_chars n c hc
    exact (digitChar_facts d hd).1
  rw [pyDigits_digits (natToDec n) (natToDec_ne_nil n) hdig]
  congr 1
  unfold natToDec
  by_cases hn : n = 0
  · rw [if_pos hn, hn]; rfl
  · rw [if_neg hn]
    rw [List.foldl_map]
    have hfold : List.foldl (fun (x : Nat) (y : Nat) => x * 10 + ((Nat.digitChar y).toNat - 48)) 0
        ((natDigitsRev n).reverse) =
        List.foldl (fun (x : Nat) (y : Nat) => x * 10 + y) 0 ((natDigitsRev n).reverse) := by
      apply List.foldl_ext
      intro a b hb
      have hb10 : b < 10 := natDigitsRev_lt10 n b (List.mem_reverse.1 hb)
      rw [(digitChar_facts b hb10).2.1]
      omega
    rw [hfold]
    have := digitsVal_natDigitsRev n
    simpa [digitsVal] using this

/-- A list whose characters all fail a predicate is unchanged by
`dropWhile`. -/
theorem dropWhile_eq_self_of_all (p : Char → Bool) (l : List Char)
    (h : ∀ c ∈ l, p c = false) : l.dropWhile p = l := by
  cases l with
  | nil => rfl
  | cons c rest => simp [List.dropWhile, h c (List.mem_cons_self _ _)]

/-- Whitespace stripping leaves a whitespace-free numeral unchanged. -/
theorem pyStrip_eq_self (l : List Char) (h : ∀ c ∈ l, isPyWs c = false) :
    pyStrip l = l := by
  unfold pyStrip
  rw [dropWhile_eq_self_of_all _ _ h,
    dropWhile_eq_self_of_all _ _ (fun c hc => h c (List.mem_reverse.1 hc)),
    List.reverse_reverse]

/-- Characters of the decimal rendering of an integer: a minus sign or a
decimal digit. -/
theorem intToDec_chars (v : Int) :
    ∀ c ∈ intToDec v, c = '-' ∨ ∃ d, d < 10 ∧ c = Nat.digitChar d := by
  unfold intToDec
  by_cases hv : v < 0
  · rw [if_pos hv]
    intro c hc
    rcases List.mem_cons.1 hc with rfl | hc2
    · exact Or.inl rfl
    · exact Or.inr (natToDec_chars _ c hc2)
  · rw [if_neg hv]
    intro c hc
    exact Or.inr (natToDec_chars _ c hc)

/-- No space occurs in the decimal rendering of an integer. -/
theorem intToDec_no_space (v : Int) : ∀ c ∈ intToDec v, ¬c = ' ' := by
  intro c hc
  rcases intToDec_chars v c hc with rfl | ⟨d, hd, rfl⟩
  · decide
  · exact (digitChar_facts d hd).2.2.1

/-- No separator occurs in the decimal rendering of an integer. -/
theorem intToDec_no_backslash (v : Int) : ∀ c ∈ intToDec v, ¬c = '\\' := by
  intro c hc
  rcases intToDec_chars v c hc with rfl | ⟨d, hd, rfl⟩
  · decide
  · exact (digitChar_facts d hd).2.2.2.1

/-- The decimal rendering of an integer is non-empty. -/
theorem intToDec_ne_nil (v : Int) : intToDec v ≠ [] := by
  unfold intToDec
  by_cases hv : v < 0
  · rw [if_pos hv]; exact (by simp)
  · rw [if_neg hv]; exact natToDec_ne_nil _

/-- Python `int` parses back the decimal rendering of any integer. -/
theorem pyInt_intToDec (v : Int) : pyInt (intToDec v) = some v := by
  have hnws : ∀ c ∈ intToDec v, isPyWs c = false := by
    intro c hc
    rcases intToDec_chars v c hc with rfl | ⟨d, hd, rfl⟩
    · rfl
    · exact (digitChar_facts d hd).2.2.2.2.2.2
  unfold pyInt
  rw [pyStrip_eq_self _ hnws]
  unfold intToDec
  by_cases hv : v < 0
  · rw [if_pos hv]
    dsimp only
    have h1 : ¬('-' : Char) = '+' := by decide
    rw [if_neg h1, if_pos rfl, pyDigits_natToDec]
    have : ((v.natAbs : Nat) : Int) = -v := Int.ofNat_natAbs_of_nonpos (le_of_lt hv)
    simp [this]
  · rw [if_neg hv]
    cases hd : natToDec v.toNat with
    | nil => exact absurd hd (natToDec_ne_nil _)
    | cons c cs =>
      have hcmem : c ∈ natToDec v.toNat := by rw [hd]; exact List.mem_cons_self _ _
      obtain ⟨d, hd10, rfl⟩ := natToDec_chars _ c hcmem
      dsimp only
      rw [if_neg ((digitChar_facts d hd10).2.2.2.2.1),
        if_neg ((digitChar_facts d hd10).2.2.2.2.2.1),
        ← hd, pyDigits_natToDec]
      simp [Int.toNat_of_nonneg (not_lt.1 hv)]

/-- Canonical integer emitted by the serializer for a source integer at a
given scale: decode to float, multiply back, truncate toward zero. -/
def canonInt (v : Int) (scale : Nat) : Int :=
  ratTrunc (fmul (fdiv v scale) scale)

/-- The index-wise conversion on an explicit six-element list. -/
theorem mkMatrix_six (v0 v1 v2 v3 v4 v5 : Int) :
    mkMatrix [v0, v1, v2, v3, v4, v5] =
      [fdiv v0 65536, fdiv v1 65536, fdiv v2 65536, fdiv v3 65536,
       fdiv v4 1000, fdiv v5 1000] := rfl

/-- The matrix text of a parsed six-integer matrix, in terms of the
canonical integers. -/
theorem matrixText_mkMatrix (v0 v1 v2 v3 v4 v5 : Int) :
    matrixText (mkMatrix [v0, v1, v2, v3, v4, v5]) =
      intToDec (canonInt v0 65536) ++ ' ' :: (intToDec (canonInt v1 65536) ++ ' ' ::
      (intToDec (canonInt v2 65536) ++ ' ' :: (intToDec (canonInt v3 65536) ++ ' ' ::
      (intToDec (canonInt v4 1000) ++ ' ' :: (intToDec (canonInt v5 1000) ++ [' ']))))) := by
  show matrixText [fdiv v0 65536, fdiv v1 65536, fdiv v2 65536, fdiv v3 65536,
    fdiv v4 1000, fdiv v5 1000] = _
  unfold matrixText canonInt
  simp [List.cons_append, List.append_assoc]

/-- Serialised form of a qualifier set holding exactly a font id, an
encoding and a matrix. -/
theorem font_string_FEM (id enc : List Char) (m : List Q) :
    FontQualifiers.font_string ⟨.val id, .unset, .val enc, .unset, .val m⟩ =
      '\\' :: 'F' :: (id ++ '\\' :: 'E' :: (enc ++ '\\' :: 'M' :: matrixText m)) := by
  simp [FontQualifiers.font_string]

/-- An identifier accepted by the check is non-empty. -/
theorem acceptable_ne_nil (s : List Char) (h : acceptable_identifiers s = true) :
    s ≠ [] := by
  intro he
  subst he
  exact absurd h (by decide)

/-- The matrix field parser accepts the canonical text of six in-range
integers and returns the corresponding matrix. -/
theorem parseMatrixField_reparse (n0 n1 n2 n3 n4 n5 : Int)
    (hb : ∀ v ∈ [n0, n1, n2, n3, n4, n5], v < 2 ^ 31 ∧ -(2 ^ 31) < v) :
    parseMatrixField false
      (intToDec n0 ++ ' ' :: (intToDec n1 ++ ' ' :: (intToDec n2 ++ ' ' ::
       (intToDec n3 ++ ' ' :: (intToDec n4 ++ ' ' :: (intToDec n5 ++ [' '])))))) =
      .ok (mkMatrix [n0, n1, n2, n3, n4, n5]) := by
  have hnsp : ∀ w : Int, ' ' ∉ intToDec w := by
    intro w hm
    exact intToDec_no_space w ' ' hm rfl
  have hstrip :
      (intToDec n0 ++ ' ' :: (intToDec n1 ++ ' ' :: (intToDec n2 ++ ' ' ::
        (intToDec n3 ++ ' ' :: (intToDec n4 ++ ' ' :: (intToDec n5 ++ [' '])))))).dropWhile
          (fun c => c = ' ') =
        intToDec n0 ++ ' ' :: (intToDec n1 ++ ' ' :: (intToDec n2 ++ ' ' ::
        (intToDec n3 ++ ' ' :: (intToDec n4 ++ ' ' :: (intToDec n5 ++ [' ']))))) := by
    cases hd : intToDec n0 with
    | nil => exact absurd hd (intToDec_ne_nil n0)
    | cons c a' =>
      have hc : c ∈ intToDec n0 := by rw [hd]; exact List.mem_cons_self _ _
      have := intToDec_no_space n0 c hc
      simp [List.dropWhile, this]
  have hsplit :
      pySplit ' '
        (intToDec n0 ++ ' ' :: (intToDec n1 ++ ' ' :: (intToDec n2 ++ ' ' ::
          (intToDec n3 ++ ' ' :: (intToDec n4 ++ ' ' :: (intToDec n5 ++ [' '])))))) =
        [intToDec n0, intToDec n1, intToDec n2, intToDec n3, intToDec n4, intToDec n5,
          []] := by
    rw [pySplit_append_sep ' ' _ _ (hnsp n0), pySplit_append_sep ' ' _ _ (hnsp n1),
      pySplit_append_sep ' ' _ _ (hnsp n2), pySplit_append_sep ' ' _ _ (hnsp n3),
      pySplit_append_sep ' ' _ _ (hnsp n4),
      show (intToDec n5 ++ [' ']) = (intToDec n5 ++ ' ' :: []) from rfl,
      pySplit_append_sep ' ' _ _ (hnsp n5)]
    rfl
  simp only [parseMatrixField, hstrip, hsplit]
  rw [show ([intToDec n0, intToDec n1, intToDec n2, intToDec n3, intToDec n4, intToDec n5,
      ([] : List Char)]) =
      ([intToDec n0, intToDec n1, intToDec n2, intToDec n3, intToDec n4, intToDec n5] ++
        [([] : List Char)]) from rfl,
    List.getLast?_concat, List.dropLast_concat]
  rw [if_pos rfl]
  unfold matrixRest
  rw [if_neg (by simp)]
  have hio : intsOf [intToDec n0, intToDec n1, intToDec n2, intToDec n3, intToDec n4,
      intToDec n5] = some [n0, n1, n2, n3, n4, n5] := by
    simp [intsOf, pyInt_intToDec]
  rw [hio]
  dsimp only
  have hb0 := hb n0 (by simp)
  have hb1 := hb n1 (by simp)
  have hb2 := hb n2 (by simp)
  have hb3 := hb n3 (by simp)
  have hb4 := hb n4 (by simp)
  have hb5 := hb n5 (by simp)
  rw [if_neg (by
    simp only [List.any_cons, List.any_nil, Bool.or_eq_true, decide_eq_true_eq]
    push_neg
    refine ⟨by omega, by omega, by omega, by omega, by omega, by omega, by simp⟩)]
  rw [if_neg (by
    simp only [List.any_cons, List.any_nil, Bool.or_eq_true, decide_eq_true_eq]
    push_neg
    refine ⟨by omega, by omega, by omega, by omega, by omega, by omega, by simp⟩)]

/-- C2 amended: for a qualifier set built from a font id, an encoding and
a six-integer matrix, re-parsing the serialised string succeeds and
serialising the result gives the same string (which always carries the
trailing space after the matrix field) — provided each canonical matrix
integer stays within the 32-bit range and is a fixed point of the
decode-encode float pipeline.  The unamended claim is false: binary64
double rounding can drift a translation component (see the
counterexample). -/
theorem C2_round_trip_amended (id enc : List Char) (v0 v1 v2 v3 v4 v5 : Int)
    (hid : acceptable_identifiers id = true) (hidb : '\\' ∉ id)
    (henc : acceptable_identifiers enc = true) (hencb : '\\' ∉ enc)
    (hr0 : canonInt v0 65536 < 2 ^ 31 ∧ -(2 ^ 31) < canonInt v0 65536)
    (hr1 : canonInt v1 65536 < 2 ^ 31 ∧ -(2 ^ 31) < canonInt v1 65536)
    (hr2 : canonInt v2 65536 < 2 ^ 31 ∧ -(2 ^ 31) < canonInt v2 65536)
    (hr3 : canonInt v3 65536 < 2 ^ 31 ∧ -(2 ^ 31) < canonInt v3 65536)
    (hr4 : canonInt v4 1000 < 2 ^ 31 ∧ -(2 ^ 31) < canonInt v4 1000)
    (hr5 : canonInt v5 1000 < 2 ^ 31 ∧ -(2 ^ 31) < canonInt v5 1000)
    (hs0 : canonInt (canonInt v0 65536) 65536 = canonInt v0 65536)
    (hs1 : canonInt (canonInt v1 65536) 65536 = canonInt v1 65536)
    (hs2 : canonInt (canonInt v2 65536) 65536 = canonInt v2 65536)
    (hs3 : canonInt (canonInt v3 65536) 65536 = canonInt v3 65536)
    (hs4 : canonInt (canonInt v4 1000) 1000 = canonInt v4 1000)
    (hs5 : canonInt (canonInt v5 1000) 1000 = canonInt v5 1000) :
    mkFontQualifiers (FontQualifiers.font_string ⟨.val id, .unset, .val enc, .unset,
        .val (mkMatrix [v0, v1, v2, v3, v4, v5])⟩) false false =
      .ok ⟨.val id, .unset, .val enc, .unset,
        .val (mkMatrix [canonInt v0 65536, canonInt v1 65536, canonInt v2 65536,
          canonInt v3 65536, canonInt v4 1000, canonInt v5 1000])⟩ ∧
    FontQualifiers.font_string ⟨.val id, .unset, .val enc, .unset,
        .val (mkMatrix [canonInt v0 65536, canonInt v1 65536, canonInt v2 65536,
          canonInt v3 65536, canonInt v4 1000, canonInt v5 1000])⟩ =
      FontQualifiers.font_string ⟨.val id, .unset, .val enc, .unset,
        .val (mkMatrix [v0, v1, v2, v3, v4, v5])⟩ ∧
    (FontQualifiers.font_string ⟨.val id, .unset, .val enc, .unset,
        .val (mkMatrix [v0, v1, v2, v3, v4, v5])⟩).getLast? = some ' ' := by
  have hmt := matrixText_mkMatrix v0 v1 v2 v3 v4 v5
  have hfs := font_string_FEM id enc (mkMatrix [v0, v1, v2, v3, v4, v5])
  have hmtb : '\\' ∉ matrixText (mkMatrix [v0, v1, v2, v3, v4, v5]) := by
    rw [hmt]
    intro hm
    simp only [List.mem_append, List.mem_cons, List.not_mem_nil, or_false] at hm
    rcases hm with h | h | h | h | h | h | h | h | h | h | h | h <;>
      first
        | exact intToDec_no_backslash _ '\\' h rfl
        | exact absurd h (by decide)
  have hFb : '\\' ∉ 'F' :: id := by
    intro hm
    rcases List.mem_cons.1 hm with h | h
    · exact absurd h (by decide)
    · exact hidb h
  have hEb : '\\' ∉ 'E' :: enc := by
    intro hm
    rcases List.mem_cons.1 hm with h | h
    · exact absurd h (by decide)
    · exact hencb h
  have hMb : '\\' ∉ 'M' :: matrixText (mkMatrix [v0, v1, v2, v3, v4, v5]) := by
    intro hm
    rcases List.mem_cons.1 hm with h | h
    · exact absurd h (by decide)
    · exact hmtb h
  have hsegs : fieldSegments (FontQualifiers.font_string ⟨.val id, .unset, .val enc, .unset,
      .val (mkMatrix [v0, v1, v2, v3, v4, v5])⟩) =
      ['F' :: id, 'E' :: enc,
        'M' :: matrixText (mkMatrix [v0, v1, v2, v3, v4, v5])] := by
    rw [fieldSegments, normalizeFQ, hfs]
    have hhead : ('\\' :: 'F' :: (id ++ '\\' :: 'E' :: (enc ++ '\\' :: 'M' ::
        matrixText (mkMatrix [v0, v1, v2, v3, v4, v5])))).head? = some '\\' := rfl
    rw [if_pos hhead]
    rw [pySplit_cons_sep, ← List.cons_append, pySplit_append_sep '\\' _ _ hFb,
      ← List.cons_append, pySplit_append_sep '\\' _ _ hEb, pySplit_no_sep '\\' _ hMb]
    rfl
  have hidne : id.isEmpty = false := by
    cases hcase : id with
    | nil => exact absurd hcase (acceptable_ne_nil id hid)
    | cons a t => rfl
  have hencne : enc.isEmpty = false := by
    cases hcase : enc with
    | nil => exact absurd hcase (acceptable_ne_nil enc henc)
    | cons a t => rfl
  have hmtne : (matrixText (mkMatrix [v0, v1, v2, v3, v4, v5])).isEmpty = false := by
    rw [hmt]
    cases hd : intToDec (canonInt v0 65536) with
    | nil => exact absurd hd (intToDec_ne_nil _)
    | cons c a' => rfl
  have s1 : parseOnePart false false emptyFQ ('F' :: id) =
      .ok ⟨.val id, .unset, .unset, .unset, .unset⟩ :=
    parseOnePart_F_val false false emptyFQ id hidne hid
  have s2 : parseOnePart false false ⟨.val id, .unset, .unset, .unset, .unset⟩ ('E' :: enc) =
      .ok ⟨.val id, .unset, .val enc, .unset, .unset⟩ :=
    parseOnePart_E_val false false _ enc hencne henc
  have s3 : parseOnePart false false ⟨.val id, .unset, .val enc, .unset, .unset⟩
      ('M' :: matrixText (mkMatrix [v0, v1, v2, v3, v4, v5])) =
      .ok ⟨.val id, .unset, .val enc, .unset,
        .val (mkMatrix [canonInt v0 65536, canonInt v1 65536, canonInt v2 65536,
          canonInt v3 65536, canonInt v4 1000, canonInt v5 1000])⟩ := by
    apply parseOnePart_M_val false false _ _ _ hmtne
    rw [hmt]
    exact parseMatrixField_reparse _ _ _ _ _ _ (by
      intro v hv
      simp only [List.mem_cons, List.not_mem_nil, or_false] at hv
      rcases hv with rfl | rfl | rfl | rfl | rfl | rfl
      · exact hr0
      · exact hr1
      · exact hr2
      · exact hr3
      · exact hr4
      · exact hr5)
  refine ⟨?_, ?_, ?_⟩
  · unfold mkFontQualifiers FontQualifiers.parse
    rw [if_neg (by simp), hsegs]
    simp only [parseParts, s1, s2, s3]
  · rw [font_string_FEM, font_string_FEM]
    rw [matrixText_mkMatrix, hmt]
    rw [hs0, hs1, hs2, hs3, hs4, hs5]
  · rw [hfs, hmt]
    rw [show ('\\' :: 'F' :: (id ++ '\\' :: 'E' :: (enc ++ '\\' :: 'M' ::
        (intToDec (canonInt v0 65536) ++ ' ' :: (intToDec (canonInt v1 65536) ++ ' ' ::
        (intToDec (canonInt v2 65536) ++ ' ' :: (intToDec (canonInt v3 65536) ++ ' ' ::
        (intToDec (canonInt v4 1000) ++ ' ' :: (intToDec (canonInt v5 1000) ++
          [' ']))))))))) =
        ('\\' :: 'F' :: (id ++ '\\' :: 'E' :: (enc ++ '\\' :: 'M' ::
        (intToDec (canonInt v0 65536) ++ ' ' :: (intToDec (canonInt v1 65536) ++ ' ' ::
        (intToDec (canonInt v2 65536) ++ ' ' :: (intToDec (canonInt v3 65536) ++ ' ' ::
        (intToDec (canonInt v4 1000) ++ ' ' :: intToDec (canonInt v5 1000))))))))) ++
          [' '] by simp [List.append_assoc]]
    exact List.getLast?_concat _

/-- C2 counterexample: the round trip is not idempotent after the first
canonicalisation.  A qualifier set built from the matrix string
`\M0 0 0 0 128004 0` serialises to `\M0 0 0 0 128003 0 ` (binary64
rounding of 128004/1000 times 1000 truncates to 128003), and re-parsing
and re-serialising that canonical string yields `\M0 0 0 0 128002 0 `,
a different string. -/
theorem C2_counterexample :
    mkFontQualifiers "\\M0 0 0 0 128004 0".data false false =
      .ok ⟨.unset, .unset, .unset, .unset, .val (mkMatrix [0, 0, 0, 0, 128004, 0])⟩ ∧
    FontQualifiers.font_string ⟨.unset, .unset, .unset, .unset,
        .val (mkMatrix [0, 0, 0, 0, 128004, 0])⟩ = "\\M0 0 0 0 128003 0 ".data ∧
    mkFontQualifiers "\\M0 0 0 0 128003 0 ".data false false =
      .ok ⟨.unset, .unset, .unset, .unset, .val (mkMatrix [0, 0, 0, 0, 128003, 0])⟩ ∧
    FontQualifiers.font_string ⟨.unset, .unset, .unset, .unset,
        .val (mkMatrix [0, 0, 0, 0, 128003, 0])⟩ = "\\M0 0 0 0 128002 0 ".data ∧
    ("\\M0 0 0 0 128002 0 ".data : List Char) ≠ "\\M0 0 0 0 128003 0 ".data :=
  ⟨by decide, by decide, by decide, by decide, by decide⟩

/-- C2 witness: the amended round trip at the worked qualifier set
`\FHomerton.Medium\ELatin1\M65536 0 0 -32768 1000 0`. -/
theorem C2_witness :
    mkFontQualifiers (FontQualifiers.font_string ⟨.val "Homerton.Medium".data, .unset,
        .val "Latin1".data, .unset,
        .val (mkMatrix [65536, 0, 0, -32768, 1000, 0])⟩) false false =
      .ok ⟨.val "Homerton.Medium".data, .unset, .val "Latin1".data, .unset,
        .val (mkMatrix [canonInt 65536 65536, canonInt 0 65536, canonInt 0 65536,
          canonInt (-32768) 65536, canonInt 1000 1000, canonInt 0 1000])⟩ ∧
    FontQualifiers.font_string ⟨.val "Homerton.Medium".data, .unset,
        .val "Latin1".data, .unset,
        .val (mkMatrix [canonInt 65536 65536, canonInt 0 65536, canonInt 0 65536,
          canonInt (-32768) 65536, canonInt 1000 1000, canonInt 0 1000])⟩ =
      FontQualifiers.font_string ⟨.val "Homerton.Medium".data, .unset,
        .val "Latin1".data, .unset,
        .val (mkMatrix [65536, 0, 0, -32768, 1000, 0])⟩ ∧
    (FontQualifiers.font_string ⟨.val "Homerton.Medium".data, .unset,
        .val "Latin1".data, .unset,
        .val (mkMatrix [65536, 0, 0, -32768, 1000, 0])⟩).getLast? = some ' ' :=
  C2_round_trip_amended "Homerton.Medium".data "Latin1".data 65536 0 0 (-32768) 1000 0
    (by decide) (by decide) (by decide) (by decide)
    (by decide) (by decide) (by decide) (by decide) (by decide) (by decide)
    (by decide) (by decide) (by decide) (by decide) (by decide) (by decide)

/-- C8 witness: the general offset property applied to the worked string
and kind `E` at offset 19. -/
theorem C8_witness :
    19 = 0 ∨ ∃ u rest,
      ("\\FHomerton.Medium\\ELatin1\\M0 0 0 0 0 0".data : List Char) =
        u ++ '\\' :: 'E' :: rest ∧ 19 = u.length + 2 :=
  C8_find_field_offsets.2.2.2.2.2.2
    "\\FHomerton.Medium\\ELatin1\\M0 0 0 0 0 0".data 'E' 19 (by decide)
